import Mathlib

/-!
Verification development for the lab05 hash-table subsystem of the repository
(src/lab05/src/hash_functions.py, hash_table_chaining.py,
hash_table_open_addressing.py).

Python integers are modelled as Nat (all quantities in the code are
non-negative), Python float load factors as Rat (the comparisons appearing in
the code involve small dyadic rationals, on which float and rational
arithmetic agree), Python None as Option.none, and operations that recurse
through resizing take an explicit fuel argument and return Option: a result
of some t means the Python call terminates with state t; increasing fuel is
monotone.  Hash functions and probe functions are constructor parameters in
the source; since they are immutable after construction they are passed as
explicit parameters to each operation here.
-/

namespace HashLab

/-- characters of a Python string, in iteration order (code points). -/
def chars (s : String) : List Char := s.data

/-- Embedding of calculate_character_sum_hash (hash_functions.py:6-24):
sum of code points, reduced mod capacity at the end. -/
def calculate_character_sum_hash (s : String) (cap : Nat) : Nat :=
  ((chars s).foldl (fun a c => a + c.toNat) 0) % cap

/-- Embedding of compute_polynomial_based_hash (hash_functions.py:27-47) with
the default base 31, identical to the inline polynomial_hash closures used as
the default hashing algorithm in both table constructors: Horner evaluation,
reduced mod capacity at every step. -/
def compute_polynomial_based_hash (s : String) (cap : Nat) : Nat :=
  (chars s).foldl (fun h c => (h * 31 + c.toNat) % cap) 0

/-- Embedding of generate_djb2_hash_code (hash_functions.py:50-72): seed 5381,
each step is (h shifted left by 5) + h + code, masked with 0xFFFFFFFF, and the
final value is reduced mod capacity. -/
def generate_djb2_hash_code (s : String) (cap : Nat) : Nat :=
  ((chars s).foldl (fun h c => (((h <<< 5) + h) + c.toNat) &&& 0xFFFFFFFF) 5381) % cap

/-- Statement of claim C9 as written: DJB2 as a fold in unbounded integers,
h to h * 33 + code, seeded 5381, reduced mod capacity only at the end. -/
def djb2_unbounded_spec (s : String) (cap : Nat) : Nat :=
  ((chars s).foldl (fun h c => h * 33 + c.toNat) 5381) % cap

/-- Amended reading of claim C9: the same fold with the running hash reduced
mod 2 to the 32nd power at every step (the mask the code applies). -/
def djb2_masked_spec (s : String) (cap : Nat) : Nat :=
  ((chars s).foldl (fun h c => (h * 33 + c.toNat) % 4294967296) 5381) % cap

/-- a hash function is in range: for positive capacity the result is a valid
index.  The default polynomial hash satisfies this. -/
def GoodHash (hf : String → Nat → Nat) : Prop :=
  ∀ k c, 1 ≤ c → hf k c < c

namespace Chaining

/-- State of HashTableWithChaining (hash_table_chaining.py:8-184).  The
hashing_function attribute is immutable after construction and is passed to
each operation explicitly instead of being stored. -/
structure Chain (V : Type) where
  capacity : Nat
  max_load_factor : ℚ
  storage : List (List (String × V))
  element_count : Nat
deriving DecidableEq

variable {V : Type}

/-- Embedding of __init__ together with _create_empty_storage
(hash_table_chaining.py:18-47).  Note that the constructor performs no
validation of the capacity. -/
def init (cap : Nat) (mlf : ℚ) : Chain V :=
  ⟨cap, mlf, List.replicate cap [], 0⟩

/-- bucket at index i of the storage (Python storage[i]; out-of-range access
cannot occur for well-formed states and good hash functions). -/
def bucket (t : Chain V) (i : Nat) : List (String × V) :=
  t.storage.getD i []

/-- linear scan of a bucket chain for a key, as in retrieve_value's loop. -/
def lookupB (k : String) : List (String × V) → Option V
  | [] => none
  | p :: rest => if p.1 = k then some p.2 else lookupB k rest

/-- test used by add_entry's chain scan: the key occurs in the bucket. -/
def hasKeyB (k : String) : List (String × V) → Bool
  | [] => false
  | p :: rest => if p.1 = k then true else hasKeyB k rest

/-- overwrite-in-place-or-append of add_entry (hash_table_chaining.py:80-87):
the first entry with a matching key is replaced at its position, otherwise the
new pair is appended at the end of the chain. -/
def replaceOrAppend (k : String) (v : V) : List (String × V) → List (String × V)
  | [] => [(k, v)]
  | p :: rest => if p.1 = k then (k, v) :: rest else p :: replaceOrAppend k v rest

/-- Embedding of current_load_factor (hash_table_chaining.py:132-134). -/
def current_load_factor (t : Chain V) : ℚ :=
  (t.element_count : ℚ) / (t.capacity : ℚ)

/-- the part of add_entry after the resize check (hash_table_chaining.py:77-88):
compute the bucket index, overwrite in place if present, else append and
increment the count. -/
def insertNoResize (hf : String → Nat → Nat) (t : Chain V) (k : String) (v : V) :
    Chain V :=
  let i := hf k t.capacity
  let b := bucket t i
  { t with storage := t.storage.set i (replaceOrAppend k v b),
           element_count := t.element_count + (if hasKeyB k b then 0 else 1) }

/-- Embedding of add_entry (hash_table_chaining.py:65-88) together with
_perform_resize_operation (lines 53-63).  If the pre-insert load factor
exceeds max_load_factor the table is rebuilt at double capacity by re-adding
every stored pair through add_entry, then the new pair is inserted.  The fuel
argument bounds the nesting depth of resizes; none means fuel was exhausted,
and any sufficiently large fuel yields the Python result. -/
def add_entry (hf : String → Nat → Nat) :
    Nat → Chain V → String → V → Option (Chain V)
  | 0, t, k, v =>
      if current_load_factor t > t.max_load_factor then none
      else some (insertNoResize hf t k v)
  | f + 1, t, k, v =>
      if current_load_factor t > t.max_load_factor then
        (t.storage.flatten.foldlM (fun acc p => add_entry hf f acc p.1 p.2)
            (init (2 * t.capacity) t.max_load_factor)).map
          (fun t' => insertNoResize hf t' k v)
      else some (insertNoResize hf t k v)

/-- Embedding of retrieve_value (hash_table_chaining.py:90-108). -/
def retrieve_value (hf : String → Nat → Nat) (t : Chain V) (k : String) : Option V :=
  lookupB k (bucket t (hf k t.capacity))

/-- removal of the first entry with a matching key from a chain, as performed
by remove_entry's del statement. -/
def removeFirst (k : String) : List (String × V) → List (String × V)
  | [] => []
  | p :: rest => if p.1 = k then rest else p :: removeFirst k rest

/-- Embedding of remove_entry (hash_table_chaining.py:110-126): returns the
updated table and the boolean result. -/
def remove_entry (hf : String → Nat → Nat) (t : Chain V) (k : String) :
    Chain V × Bool :=
  let i := hf k t.capacity
  let b := bucket t i
  if hasKeyB k b then
    ({ t with storage := t.storage.set i (removeFirst k b),
              element_count := t.element_count - 1 }, true)
  else (t, false)

/-- Embedding of analyze_collision_statistics (hash_table_chaining.py:136-158):
total collisions and the average per non-empty bucket (0 if none). -/
def analyze_collision_statistics (t : Chain V) : Nat × ℚ :=
  let total := (t.storage.map (fun b => if 0 < b.length then b.length - 1 else 0)).sum
  let nonempty := (t.storage.filter (fun b => 0 < b.length)).length
  (total, if 0 < nonempty then (total : ℚ) / (nonempty : ℚ) else 0)

/-- Python retrieve_value as seen by a caller when the stored payloads may be
None: the table stores Option W values, None is Option.none, and an absent key
also yields None. -/
def retrieve_py {W : Type} (hf : String → Nat → Nat) (t : Chain (Option W))
    (k : String) : Option W :=
  match retrieve_value hf t k with
  | some v => v
  | none => none

/-- Embedding of contains_key and the identical __contains__
(hash_table_chaining.py:128-130 and 171-173): retrieve_value(key) is not None. -/
def contains_key {W : Type} (hf : String → Nat → Nat) (t : Chain (Option W))
    (k : String) : Bool :=
  (retrieve_py hf t k).isSome

/-- Embedding of __getitem__ (hash_table_chaining.py:175-180): KeyError when
retrieve_value gives None. -/
def getitem {W : Type} (hf : String → Nat → Nat) (t : Chain (Option W))
    (k : String) : Except String W :=
  match retrieve_py hf t k with
  | some w => Except.ok w
  | none => Except.error "KeyError"

/-- well-formedness of a chained-table state: the storage has capacity many
buckets, the capacity is positive, element_count counts the stored pairs,
every pair sits in the bucket its key hashes to, and keys are unique within a
bucket. -/
def WF (hf : String → Nat → Nat) (t : Chain V) : Prop :=
  t.storage.length = t.capacity ∧ 1 ≤ t.capacity ∧
  t.element_count = t.storage.flatten.length ∧
  (∀ i, ∀ p ∈ bucket t i, hf p.1 t.capacity = i) ∧
  (∀ i, ((bucket t i).map Prod.fst).Nodup)

/-- behavioural specification of one completed add_entry call: the result is
well-formed, lookups are updated pointwise, the count grows exactly when the
key was absent, and the configured max load factor is unchanged. -/
def AddEntrySpec (hf : String → Nat → Nat) (t : Chain V) (k : String) (v : V)
    (t' : Chain V) : Prop :=
  WF hf t' ∧
  (∀ k', retrieve_value hf t' k' =
    if k' = k then some v else retrieve_value hf t k') ∧
  t'.element_count =
    t.element_count + (if (retrieve_value hf t k).isSome then 0 else 1) ∧
  t'.max_load_factor = t.max_load_factor

/-- inductive invariant carried by reachable chained-table states when the
configured max load factor is at least 1/2: well-formed, and the count
overshoots max_load_factor * capacity by at most one entry. -/
def ChainInv (hf : String → Nat → Nat) (t : Chain V) : Prop :=
  WF hf t ∧ 1/2 ≤ t.max_load_factor ∧
  (t.element_count : ℚ) ≤ t.max_load_factor * t.capacity + 1

/-- states reachable from a freshly constructed table (positive capacity)
through the public mutators.  The fuel in the insert step is arbitrary: any
completed insert is covered. -/
inductive Reachable (hf : String → Nat → Nat) : Chain V → Prop
  | init (cap : Nat) (mlf : ℚ) (hcap : 1 ≤ cap) (hm : 1/2 ≤ mlf) :
      Reachable hf (init cap mlf)
  | add (t t' : Chain V) (f : Nat) (k : String) (v : V) :
      Reachable hf t → add_entry hf f t k v = some t' → Reachable hf t'
  | remove (t : Chain V) (k : String) :
      Reachable hf t → Reachable hf (remove_entry hf t k).1

end Chaining

namespace OpenAddr

/-- slot of the open-addressing array (hash_table_open_addressing.py:52-54):
None, the DELETED_MARKER sentinel, or an occupied (key, value) pair. -/
inductive Slot (V : Type) where
  | empty : Slot V
  | deleted : Slot V
  | entry (k : String) (v : V) : Slot V
deriving DecidableEq

/-- State of OpenAddressingHashTable (hash_table_open_addressing.py:8-229).
The collision strategy and hash function are fixed at construction; they are
modelled as the probe-function parameter of each operation. -/
structure OA (V : Type) where
  capacity : Nat
  max_load_factor : ℚ
  storage : List (Slot V)
  element_count : Nat
deriving DecidableEq

variable {V : Type}

/-- Embedding of __init__ (hash_table_open_addressing.py:18-54).  Note that
the constructor performs no validation of the capacity or strategy
configuration. -/
def init (cap : Nat) (mlf : ℚ) : OA V :=
  ⟨cap, mlf, List.replicate cap .empty, 0⟩

/-- Embedding of _compute_probe_index for collision_strategy 'linear'
(hash_table_open_addressing.py:63-65), parameterized by the primary hash. -/
def linearProbe (hf : String → Nat → Nat) (k : String) (cap a : Nat) : Nat :=
  (hf k cap + a) % cap

/-- Embedding of _compute_probe_index for collision_strategy 'double'
(hash_table_open_addressing.py:41-45 and 67-68): the closed-over
compute_polynomial_hash as primary hash and 1 + character sum mod
(capacity - 2) as secondary. -/
def doubleProbe (k : String) (cap a : Nat) : Nat :=
  let primary := compute_polynomial_based_hash k cap
  let secondary := 1 + ((chars k).foldl (fun s c => s + c.toNat) 0) % (cap - 2)
  (primary + a * secondary) % cap

/-- a probe function is in range: for positive capacity every probe index is
a valid index. -/
def GoodProbe (probe : String → Nat → Nat → Nat) : Prop :=
  ∀ k c a, 1 ≤ c → probe k c a < c

/-- slot at index i of the storage (Python storage[idx]). -/
def slotAt (t : OA V) (i : Nat) : Slot V :=
  t.storage.getD i .empty

/-- acceptance test of _insert_entry's probe loop
(hash_table_open_addressing.py:92-94): empty, deleted, or matching key. -/
def slotAccepts (s : Slot V) (k : String) : Bool :=
  match s with
  | .empty => true
  | .deleted => true
  | .entry k' _ => k' = k

/-- probe loop of _insert_entry over an explicit list of probe indices: the
first index whose slot is acceptable. -/
def findIdxA (t : OA V) (k : String) : List Nat → Option Nat
  | [] => none
  | i :: rest => if slotAccepts (slotAt t i) k then some i else findIdxA t k rest

/-- first acceptable storage index along the probe sequence, if the loop over
attempts 0 .. capacity-1 finds one (hash_table_open_addressing.py:87-106). -/
def findInsertIndex (probe : String → Nat → Nat → Nat) (t : OA V) (k : String) :
    Option Nat :=
  findIdxA t k ((List.range t.capacity).map (probe k t.capacity))

/-- slot write of _insert_entry (hash_table_open_addressing.py:96-104): store
the pair at index i and increment the count when the slot was empty or
deleted. -/
def placeAt (t : OA V) (i : Nat) (k : String) (v : V) : OA V :=
  let wasFree : Bool := match slotAt t i with | .entry _ _ => false | _ => true
  { t with storage := t.storage.set i (.entry k v),
           element_count := t.element_count + (if wasFree then 1 else 0) }

/-- the (key, value) pair stored in a slot, if the slot is occupied. -/
def entryOf : Slot V → Option (String × V)
  | .entry k v => some (k, v)
  | _ => none

/-- test for an occupied slot. -/
def isEntry : Slot V → Bool
  | .entry _ _ => true
  | _ => false

/-- test for an occupied slot holding the given key. -/
def isEntryKey (k : String) : Slot V → Bool
  | .entry k' _ => k' = k
  | _ => false

/-- sum of a weight function over a list; used for counting occupied slots
and occurrences of a key. -/
def sumW {α : Type} (w : α → Nat) : List α → Nat
  | [] => 0
  | x :: rest => w x + sumW w rest

/-- weight 1 for occupied slots. -/
def entryWeight : Slot V → Nat
  | .entry _ _ => 1
  | _ => 0

/-- weight 1 for occupied slots holding the given key. -/
def keyWeight (k : String) : Slot V → Nat
  | .entry k' _ => if k' = k then 1 else 0
  | _ => 0

/-- weight 1 for pairs with the given key. -/
def pairKeyWeight (k : String) (p : String × V) : Nat :=
  if p.1 = k then 1 else 0

/-- live (key, value) pairs in storage order, as iterated by
_execute_table_expansion (hash_table_open_addressing.py:80-83). -/
def liveEntries (t : OA V) : List (String × V) :=
  t.storage.filterMap entryOf

/-- Embedding of _insert_entry (hash_table_open_addressing.py:85-110) together
with _execute_table_expansion (lines 73-83): place at the first acceptable
probe index; if the whole probe sequence is unacceptable, rebuild at double
capacity by re-inserting every live entry, then retry.  The fuel argument
bounds the number of expansions; none means fuel was exhausted. -/
def insertEntry (probe : String → Nat → Nat → Nat) :
    Nat → OA V → String → V → Option (OA V)
  | 0, t, k, v => (findInsertIndex probe t k).map (fun i => placeAt t i k v)
  | f + 1, t, k, v =>
      match findInsertIndex probe t k with
      | some i => some (placeAt t i k v)
      | none =>
          ((liveEntries t).foldlM (fun acc p => insertEntry probe f acc p.1 p.2)
              (init (2 * t.capacity) t.max_load_factor)).bind
            (fun t' => insertEntry probe f t' k v)

/-- Embedding of _execute_table_expansion alone (used by add_element's
load-factor branch): re-insert every live entry into a fresh array of the
given capacity. -/
def expand (probe : String → Nat → Nat → Nat) (f : Nat) (t : OA V)
    (newCap : Nat) : Option (OA V) :=
  (liveEntries t).foldlM (fun acc p => insertEntry probe f acc p.1 p.2)
    (init newCap t.max_load_factor)

/-- Embedding of compute_current_load (hash_table_open_addressing.py:169-171). -/
def compute_current_load (t : OA V) : ℚ :=
  (t.element_count : ℚ) / (t.capacity : ℚ)

/-- Embedding of add_element (hash_table_open_addressing.py:112-124): expand
first when the pre-insert load factor exceeds max_load_factor, then insert. -/
def add_element (probe : String → Nat → Nat → Nat) (f : Nat) (t : OA V)
    (k : String) (v : V) : Option (OA V) :=
  if compute_current_load t > t.max_load_factor then
    (expand probe f t (2 * t.capacity)).bind (fun t' => insertEntry probe f t' k v)
  else insertEntry probe f t k v

/-- probe loop of find_element over an explicit list of probe indices
(hash_table_open_addressing.py:133-145): stop with absent on an empty slot,
skip deleted slots and non-matching entries, return the value on a match. -/
def findAux (t : OA V) (k : String) : List Nat → Option V
  | [] => none
  | i :: rest =>
      match slotAt t i with
      | .empty => none
      | .deleted => findAux t k rest
      | .entry k' v => if k' = k then some v else findAux t k rest

/-- Embedding of find_element (hash_table_open_addressing.py:126-145). -/
def find_element (probe : String → Nat → Nat → Nat) (t : OA V) (k : String) :
    Option V :=
  findAux t k ((List.range t.capacity).map (probe k t.capacity))

/-- probe loop of remove_element over an explicit list of probe indices
(hash_table_open_addressing.py:154-167): on a match the slot becomes the
deleted marker and the count decreases. -/
def removeAux (t : OA V) (k : String) : List Nat → OA V × Bool
  | [] => (t, false)
  | i :: rest =>
      match slotAt t i with
      | .empty => (t, false)
      | .deleted => removeAux t k rest
      | .entry k' _ =>
          if k' = k then
            ({ t with storage := t.storage.set i .deleted,
                      element_count := t.element_count - 1 }, true)
          else removeAux t k rest

/-- Embedding of remove_element (hash_table_open_addressing.py:147-167). -/
def remove_element (probe : String → Nat → Nat → Nat) (t : OA V) (k : String) :
    OA V × Bool :=
  removeAux t k ((List.range t.capacity).map (probe k t.capacity))

/-- Python find_element as seen by a caller when stored payloads may be None:
the table stores Option W values and an absent key also yields None. -/
def find_py {W : Type} (probe : String → Nat → Nat → Nat) (t : OA (Option W))
    (k : String) : Option W :=
  match find_element probe t k with
  | some v => v
  | none => none

/-- Embedding of contains_key and the identical __contains__
(hash_table_open_addressing.py:208-210 and 216-218). -/
def contains_key {W : Type} (probe : String → Nat → Nat → Nat)
    (t : OA (Option W)) (k : String) : Bool :=
  (find_py probe t k).isSome

/-- Embedding of __getitem__ (hash_table_open_addressing.py:220-225). -/
def getitem {W : Type} (probe : String → Nat → Nat → Nat) (t : OA (Option W))
    (k : String) : Except String W :=
  match find_py probe t k with
  | some w => Except.ok w
  | none => Except.error "KeyError"

/-- number of live slots holding the given key. -/
def keyCount (t : OA V) (k : String) : Nat :=
  sumW (keyWeight k) t.storage

/-- structural well-formedness: storage has capacity many slots and the
capacity is positive. -/
def Struct (t : OA V) : Prop :=
  t.storage.length = t.capacity ∧ 1 ≤ t.capacity

/-- clean-state invariant: structurally well formed, no deleted markers, the
count equals the number of occupied slots, no key occupies two slots, and
every occupied slot is reached by find_element on its key.  States produced
from a fresh table by insertions alone satisfy it. -/
def CleanInv (probe : String → Nat → Nat → Nat) (t : OA V) : Prop :=
  Struct t ∧ (∀ s ∈ t.storage, s ≠ .deleted) ∧
  t.element_count = sumW entryWeight t.storage ∧
  (∀ k, keyCount t k ≤ 1) ∧
  (∀ j, j < t.storage.length → ∀ k v, t.storage.getD j .empty = Slot.entry k v →
    find_element probe t k = some v)

/-- behavioural specification of one completed open-addressing insert on a
clean state: the result is clean, the inserted key is found with its value,
other lookups are unchanged, the count grows exactly when the key was absent,
and the configured max load factor is unchanged. -/
def CleanAddSpec (probe : String → Nat → Nat → Nat) (t : OA V) (k : String)
    (v : V) (t' : OA V) : Prop :=
  CleanInv probe t' ∧ find_element probe t' k = some v ∧
  (∀ k', k' ≠ k → find_element probe t' k' = find_element probe t k') ∧
  t'.element_count =
    t.element_count + (if (find_element probe t k).isSome then 0 else 1) ∧
  t'.max_load_factor = t.max_load_factor

end OpenAddr

/-! Lemmas.  First the chained table: bucket-level facts, then the
specification of a single insert, then induction over resize fuel. -/

namespace Chaining

variable {V : Type}

theorem lookupB_isSome_eq_hasKeyB (k : String) (b : List (String × V)) :
    (lookupB k b).isSome = hasKeyB k b := by
  induction b with
  | nil => rfl
  | cons p rest ih =>
      by_cases h : p.1 = k <;> simp [lookupB, hasKeyB, h, ih]

theorem lookupB_eq_none_of_not_hasKeyB {k : String} {b : List (String × V)}
    (h : hasKeyB k b = false) : lookupB k b = none := by
  have := lookupB_isSome_eq_hasKeyB k b
  rw [h] at this
  exact Option.not_isSome_iff_eq_none.mp (by simp [this])

theorem hasKeyB_eq_false_of_forall {k : String} {b : List (String × V)}
    (h : ∀ p ∈ b, p.1 ≠ k) : hasKeyB k b = false := by
  induction b with
  | nil => rfl
  | cons p rest ih =>
      have hp := h p (by simp)
      simp only [hasKeyB, if_neg hp]
      exact ih (fun q hq => h q (by simp [hq]))

theorem lookupB_replaceOrAppend_self (k : String) (v : V) (b : List (String × V)) :
    lookupB k (replaceOrAppend k v b) = some v := by
  induction b with
  | nil => simp [replaceOrAppend, lookupB]
  | cons p rest ih =>
      by_cases h : p.1 = k <;> simp [replaceOrAppend, lookupB, h, ih]

theorem lookupB_replaceOrAppend_other {k k' : String} (hne : k' ≠ k) (v : V)
    (b : List (String × V)) :
    lookupB k' (replaceOrAppend k v b) = lookupB k' b := by
  have hk : ¬(k = k') := fun hh => hne hh.symm
  induction b with
  | nil => simp [replaceOrAppend, lookupB, hk]
  | cons p rest ih =>
      by_cases h : p.1 = k
      · simp [replaceOrAppend, lookupB, h, hk]
      · by_cases h' : p.1 = k' <;> simp [replaceOrAppend, lookupB, h, h', ih, hne]

theorem length_replaceOrAppend (k : String) (v : V) (b : List (String × V)) :
    (replaceOrAppend k v b).length = b.length + (if hasKeyB k b then 0 else 1) := by
  induction b with
  | nil => simp [replaceOrAppend, hasKeyB]
  | cons p rest ih =>
      by_cases h : p.1 = k <;> simp [replaceOrAppend, hasKeyB, h, ih] <;> omega

theorem mem_replaceOrAppend {p : String × V} {k : String} {v : V}
    {b : List (String × V)} (hp : p ∈ replaceOrAppend k v b) :
    p = (k, v) ∨ p ∈ b := by
  induction b with
  | nil => simpa [replaceOrAppend] using hp
  | cons q rest ih =>
      by_cases h : q.1 = k
      · simp only [replaceOrAppend, if_pos h, List.mem_cons] at hp
        rcases hp with hp | hp
        · exact Or.inl hp
        · exact Or.inr (by simp [hp])
      · simp only [replaceOrAppend, if_neg h, List.mem_cons] at hp
        rcases hp with hp | hp
        · exact Or.inr (by simp [hp])
        · rcases ih hp with hh | hh
          · exact Or.inl hh
          · exact Or.inr (by simp [hh])

theorem keys_replaceOrAppend_nodup {k : String} {v : V} {b : List (String × V)}
    (h : (b.map Prod.fst).Nodup) :
    ((replaceOrAppend k v b).map Prod.fst).Nodup := by
  induction b with
  | nil => simp [replaceOrAppend]
  | cons p rest ih =>
      simp only [List.map_cons, List.nodup_cons] at h
      by_cases hp : p.1 = k
      · simp only [replaceOrAppend, if_pos hp, List.map_cons, List.nodup_cons]
        exact ⟨by rw [← hp]; exact h.1, h.2⟩
      · simp only [replaceOrAppend, if_neg hp, List.map_cons, List.nodup_cons]
        refine ⟨fun hmem => ?_, ih h.2⟩
        rcases List.mem_map.mp hmem with ⟨q, hq, hq1⟩
        rcases mem_replaceOrAppend hq with rfl | hq'
        · exact hp hq1.symm
        · exact h.1 (List.mem_map.mpr ⟨q, hq', hq1⟩)

theorem lookupB_removeFirst_self {k : String} {b : List (String × V)}
    (h : (b.map Prod.fst).Nodup) : lookupB k (removeFirst k b) = none := by
  induction b with
  | nil => rfl
  | cons p rest ih =>
      simp only [List.map_cons, List.nodup_cons] at h
      by_cases hp : p.1 = k
      · simp only [removeFirst, if_pos hp]
        apply lookupB_eq_none_of_not_hasKeyB
        apply hasKeyB_eq_false_of_forall
        intro q hq hqk
        apply h.1
        have hm : q.1 ∈ List.map Prod.fst rest := List.mem_map.mpr ⟨q, hq, rfl⟩
        rwa [hqk, ← hp] at hm
      · simpa [removeFirst, lookupB, hp] using ih h.2

theorem lookupB_removeFirst_other {k k' : String} (hne : k' ≠ k)
    (b : List (String × V)) :
    lookupB k' (removeFirst k b) = lookupB k' b := by
  have hk : ¬(k = k') := fun hh => hne hh.symm
  induction b with
  | nil => rfl
  | cons p rest ih =>
      by_cases hp : p.1 = k
      · simp [removeFirst, lookupB, hp, hk]
      · by_cases hp' : p.1 = k' <;> simp [removeFirst, lookupB, hp, hp', ih, hne]

theorem length_removeFirst {k : String} {b : List (String × V)}
    (h : hasKeyB k b = true) : (removeFirst k b).length + 1 = b.length := by
  induction b with
  | nil => simp [hasKeyB] at h
  | cons p rest ih =>
      by_cases hp : p.1 = k
      · simp [removeFirst, hp]
      · simp only [hasKeyB, if_neg hp] at h
        simp [removeFirst, hp, ih h]

theorem mem_removeFirst {p : String × V} {k : String} {b : List (String × V)}
    (hp : p ∈ removeFirst k b) : p ∈ b := by
  induction b with
  | nil => simpa [removeFirst] using hp
  | cons q rest ih =>
      by_cases hq : q.1 = k
      · simp only [removeFirst, if_pos hq] at hp
        exact by simp [hp]
      · simp only [removeFirst, if_neg hq, List.mem_cons] at hp
        rcases hp with hp | hp
        · simp [hp]
        · simp [ih hp]

theorem keys_removeFirst_nodup {k : String} {b : List (String × V)}
    (h : (b.map Prod.fst).Nodup) : ((removeFirst k b).map Prod.fst).Nodup := by
  induction b with
  | nil => simp [removeFirst]
  | cons p rest ih =>
      simp only [List.map_cons, List.nodup_cons] at h
      by_cases hp : p.1 = k
      · simpa [removeFirst, hp] using h.2
      · simp only [removeFirst, if_neg hp, List.map_cons, List.nodup_cons]
        refine ⟨fun hmem => ?_, ih h.2⟩
        rcases List.mem_map.mp hmem with ⟨q, hq, hq1⟩
        exact h.1 (List.mem_map.mpr ⟨q, mem_removeFirst hq, hq1⟩)

theorem hasKeyB_eq_isSome_retrieve (hf : String → Nat → Nat) (t : Chain V)
    (k : String) :
    hasKeyB k (bucket t (hf k t.capacity)) = (retrieve_value hf t k).isSome := by
  rw [retrieve_value, lookupB_isSome_eq_hasKeyB]

theorem getD_set_of_lt {α : Type} (l : List α) (i : Nat) (h : i < l.length)
    (b d : α) (j : Nat) :
    (l.set i b).getD j d = if j = i then b else l.getD j d := by
  induction l generalizing i j with
  | nil => simp at h
  | cons x xs ih =>
      cases i with
      | zero =>
          cases j with
          | zero => simp
          | succ j => simp [List.getD_cons_succ]
      | succ i =>
          cases j with
          | zero => simp [List.getD_cons_zero]
          | succ j =>
              have hi : i < xs.length := by simpa using h
              have hrec := ih i hi j
              rw [List.set_cons_succ, List.getD_cons_succ, List.getD_cons_succ, hrec]
              by_cases hji : j = i
              · simp [hji]
              · have hne : ¬(j + 1 = i + 1) := by omega
                simp [hji, hne]

theorem flatten_length_set {α : Type} (l : List (List α)) (i : Nat)
    (b : List α) (h : i < l.length) :
    ((l.set i b).flatten).length + (l.getD i []).length
      = l.flatten.length + b.length := by
  induction l generalizing i with
  | nil => simp at h
  | cons x xs ih =>
      cases i with
      | zero =>
          simp only [List.set_cons_zero, List.flatten_cons, List.length_append,
            List.getD_cons_zero]
          omega
      | succ i =>
          have hi : i < xs.length := by simpa using h
          have hrec := ih i hi
          simp only [List.set_cons_succ, List.flatten_cons, List.length_append,
            List.getD_cons_succ]
          omega

theorem capacity_insertNoResize (hf : String → Nat → Nat) (t : Chain V)
    (k : String) (v : V) :
    (insertNoResize hf t k v).capacity = t.capacity := rfl

theorem max_insertNoResize (hf : String → Nat → Nat) (t : Chain V)
    (k : String) (v : V) :
    (insertNoResize hf t k v).max_load_factor = t.max_load_factor := rfl

theorem storage_insertNoResize (hf : String → Nat → Nat) (t : Chain V)
    (k : String) (v : V) :
    (insertNoResize hf t k v).storage =
      t.storage.set (hf k t.capacity)
        (replaceOrAppend k v (bucket t (hf k t.capacity))) := rfl

theorem count_insertNoResize (hf : String → Nat → Nat) (t : Chain V)
    (k : String) (v : V) :
    (insertNoResize hf t k v).element_count =
      t.element_count + (if (retrieve_value hf t k).isSome then 0 else 1) := by
  rw [← hasKeyB_eq_isSome_retrieve]
  rfl

theorem bucket_insertNoResize (hf : String → Nat → Nat) (t : Chain V)
    (k : String) (v : V) (hlen : t.storage.length = t.capacity)
    (hcap : 1 ≤ t.capacity) (hh : GoodHash hf) (j : Nat) :
    bucket (insertNoResize hf t k v) j =
      if j = hf k t.capacity then
        replaceOrAppend k v (bucket t (hf k t.capacity))
      else bucket t j := by
  have hi : hf k t.capacity < t.storage.length := by
    rw [hlen]; exact hh k _ hcap
  rw [bucket, storage_insertNoResize, getD_set_of_lt _ _ hi]
  rfl

theorem retrieve_insertNoResize (hf : String → Nat → Nat) (t : Chain V)
    (k : String) (v : V) (k' : String) (hlen : t.storage.length = t.capacity)
    (hcap : 1 ≤ t.capacity) (hh : GoodHash hf) :
    retrieve_value hf (insertNoResize hf t k v) k' =
      if k' = k then some v else retrieve_value hf t k' := by
  have hcap' : (insertNoResize hf t k v).capacity = t.capacity := rfl
  rw [retrieve_value, hcap', bucket_insertNoResize hf t k v hlen hcap hh]
  by_cases hk : k' = k
  · subst hk
    simp [lookupB_replaceOrAppend_self]
  · by_cases hj : hf k' t.capacity = hf k t.capacity
    · rw [if_pos hj, if_neg hk, lookupB_replaceOrAppend_other hk, retrieve_value, hj]
    · rw [if_neg hj, if_neg hk, retrieve_value]

theorem WF_insertNoResize (hf : String → Nat → Nat) {t : Chain V}
    (k : String) (v : V) (hwf : WF hf t) (hh : GoodHash hf) :
    WF hf (insertNoResize hf t k v) := by
  obtain ⟨hlen, hcap, hcount, hplace, hnd⟩ := hwf
  have hi : hf k t.capacity < t.storage.length := by
    rw [hlen]; exact hh k _ hcap
  refine ⟨?_, ?_, ?_, ?_, ?_⟩
  · rw [storage_insertNoResize, List.length_set, hlen]; rfl
  · exact hcap
  · rw [count_insertNoResize, storage_insertNoResize]
    have hfl := flatten_length_set t.storage (hf k t.capacity)
      (replaceOrAppend k v (bucket t (hf k t.capacity))) hi
    have hrl := length_replaceOrAppend k v (bucket t (hf k t.capacity))
    rw [← hasKeyB_eq_isSome_retrieve, hcount]
    simp only [bucket] at hfl hrl ⊢
    by_cases hkey : hasKeyB k (t.storage.getD (hf k t.capacity) []) <;>
      simp only [hkey, ite_true, ite_false] at hrl ⊢ <;> omega
  · intro j p hp
    rw [bucket_insertNoResize hf t k v hlen hcap hh] at hp
    rw [capacity_insertNoResize]
    by_cases hj : j = hf k t.capacity
    · rw [if_pos hj] at hp
      rcases mem_replaceOrAppend hp with rfl | hp'
      · exact hj.symm
      · rw [hplace _ p hp', hj]
    · rw [if_neg hj] at hp
      exact hplace _ p hp
  · intro j
    rw [bucket_insertNoResize hf t k v hlen hcap hh]
    by_cases hj : j = hf k t.capacity
    · rw [if_pos hj]
      exact keys_replaceOrAppend_nodup (hnd _)
    · rw [if_neg hj]
      exact hnd j

theorem lookupB_eq_none_of_not_mem_keys {k : String} {es : List (String × V)}
    (h : k ∉ es.map Prod.fst) : lookupB k es = none := by
  apply lookupB_eq_none_of_not_hasKeyB
  apply hasKeyB_eq_false_of_forall
  intro p hp hpk
  exact h (List.mem_map.mpr ⟨p, hp, hpk⟩)

theorem lookupB_append (k : String) (b1 b2 : List (String × V)) :
    lookupB k (b1 ++ b2) =
      match lookupB k b1 with
      | some v => some v
      | none => lookupB k b2 := by
  induction b1 with
  | nil => simp [lookupB]
  | cons p rest ih =>
      by_cases hp : p.1 = k <;> simp [lookupB, hp, ih]

theorem mem_bucket_of_mem_flatten {L : List (List (String × V))}
    {x : String × V} (hx : x ∈ L.flatten) :
    ∃ j, j < L.length ∧ x ∈ L.getD j [] := by
  induction L with
  | nil => simp at hx
  | cons b rest ih =>
      rw [List.flatten_cons, List.mem_append] at hx
      rcases hx with hx | hx
      · exact ⟨0, by simp, by simpa using hx⟩
      · obtain ⟨j, hj, hmem⟩ := ih hx
        exact ⟨j + 1, by simpa using hj, by simpa [List.getD_cons_succ] using hmem⟩

theorem nodup_flatten_keys_aux (hfk : String → Nat) :
    ∀ (L : List (List (String × V))) (o : Nat),
      (∀ j, ∀ p ∈ L.getD j [], hfk p.1 = o + j) →
      (∀ j, ((L.getD j []).map Prod.fst).Nodup) →
      ((L.flatten).map Prod.fst).Nodup := by
  intro L
  induction L with
  | nil => intro o _ _; simp
  | cons b rest ih =>
      intro o hplace hnd
      rw [List.flatten_cons, List.map_append, List.nodup_append]
      refine ⟨by simpa using hnd 0, ?_, ?_⟩
      · apply ih (o + 1)
        · intro j p hp
          have := hplace (j + 1) p (by simpa [List.getD_cons_succ] using hp)
          omega
        · intro j
          simpa [List.getD_cons_succ] using hnd (j + 1)
      · intro a ha ha'
        rcases List.mem_map.mp ha with ⟨p, hp, hpa⟩
        rcases List.mem_map.mp ha' with ⟨q, hq, hqa⟩
        obtain ⟨j, hj, hmem⟩ := mem_bucket_of_mem_flatten hq
        have h1 : hfk p.1 = o := by simpa using hplace 0 p (by simpa using hp)
        have h2 : hfk q.1 = o + (j + 1) :=
          hplace (j + 1) q (by simpa [List.getD_cons_succ] using hmem)
        rw [hpa] at h1
        rw [hqa] at h2
        omega

theorem nodup_flatten_keys {hf : String → Nat → Nat} {t : Chain V}
    (hwf : WF hf t) : ((t.storage.flatten).map Prod.fst).Nodup := by
  apply nodup_flatten_keys_aux (fun s => hf s t.capacity) t.storage 0
  · intro j p hp
    simpa using hwf.2.2.2.1 j p hp
  · exact hwf.2.2.2.2

theorem lookupB_flatten_eq_none {L : List (List (String × V))} {k : String}
    (h : ∀ j, hasKeyB k (L.getD j []) = false) :
    lookupB k L.flatten = none := by
  induction L with
  | nil => rfl
  | cons b rest ih =>
      rw [List.flatten_cons, lookupB_append]
      have hb : lookupB k b = none :=
        lookupB_eq_none_of_not_hasKeyB (by simpa using h 0)
      rw [hb]
      exact ih (fun j => by simpa [List.getD_cons_succ] using h (j + 1))

theorem lookupB_flatten_unique :
    ∀ (L : List (List (String × V))) (k : String) (i : Nat), i < L.length →
      (∀ j, j ≠ i → hasKeyB k (L.getD j []) = false) →
      lookupB k L.flatten = lookupB k (L.getD i []) := by
  intro L
  induction L with
  | nil => intro k i hi; simp at hi
  | cons b rest ih =>
      intro k i hi honly
      rw [List.flatten_cons, lookupB_append]
      cases i with
      | zero =>
          simp only [List.getD_cons_zero]
          cases hb : lookupB k b with
          | some v => rfl
          | none =>
              exact lookupB_flatten_eq_none
                (fun j => by simpa [List.getD_cons_succ] using honly (j + 1) (by omega))
      | succ i =>
          have hb : lookupB k b = none :=
            lookupB_eq_none_of_not_hasKeyB (by simpa using honly 0 (by omega))
          rw [hb, List.getD_cons_succ]
          exact ih k i (by simpa using hi)
            (fun j hj => by simpa [List.getD_cons_succ] using honly (j + 1) (by omega))

theorem retrieve_eq_flatten_lookup {hf : String → Nat → Nat} {t : Chain V}
    (hwf : WF hf t) (hh : GoodHash hf) (k : String) :
    retrieve_value hf t k = lookupB k t.storage.flatten := by
  obtain ⟨hlen, hcap, _, hplace, _⟩ := hwf
  have hi : hf k t.capacity < t.storage.length := by
    rw [hlen]; exact hh k _ hcap
  rw [retrieve_value]
  symm
  apply lookupB_flatten_unique t.storage k (hf k t.capacity) hi
  intro j hj
  apply hasKeyB_eq_false_of_forall
  intro p hp hpk
  exact hj (by rw [← hplace j p hp, hpk])

theorem bucket_init (c : Nat) (m : ℚ) (j : Nat) :
    bucket (init c m : Chain V) j = [] := by
  simp only [bucket, init, List.getD_eq_getElem?_getD, List.getElem?_replicate]
  split <;> rfl

theorem retrieve_init (hf : String → Nat → Nat) (c : Nat) (m : ℚ) (k : String) :
    retrieve_value hf (init c m : Chain V) k = none := by
  rw [retrieve_value, bucket_init]; rfl

theorem flatten_replicate_nil (c : Nat) :
    (List.replicate c ([] : List (String × V))).flatten = [] := by
  induction c with
  | zero => rfl
  | succ c ih => simpa [List.replicate_succ] using ih

theorem WF_init (hf : String → Nat → Nat) (c : Nat) (m : ℚ) (hc : 1 ≤ c) :
    WF hf (init c m : Chain V) := by
  refine ⟨by simp [init], hc, ?_, ?_, ?_⟩
  · show (0 : Nat) = _
    rw [show (init c m : Chain V).storage = List.replicate c [] from rfl,
      flatten_replicate_nil]
    rfl
  · intro j p hp
    rw [bucket_init] at hp
    simp at hp
  · intro j
    rw [bucket_init]
    simp

theorem insertNoResize_addSpec (hf : String → Nat → Nat) {t : Chain V}
    (k : String) (v : V) (hwf : WF hf t) (hh : GoodHash hf) :
    AddEntrySpec hf t k v (insertNoResize hf t k v) :=
  ⟨WF_insertNoResize hf k v hwf hh,
   fun k' => retrieve_insertNoResize hf t k v k' hwf.1 hwf.2.1 hh,
   count_insertNoResize hf t k v,
   max_insertNoResize hf t k v⟩

theorem foldlM_add_spec (hf : String → Nat → Nat)
    (step : Chain V → String → V → Option (Chain V))
    (hstep : ∀ t k v t', WF hf t → step t k v = some t' → AddEntrySpec hf t k v t') :
    ∀ (es : List (String × V)) (t0 tr : Chain V), WF hf t0 →
      (es.map Prod.fst).Nodup →
      (∀ p ∈ es, retrieve_value hf t0 p.1 = none) →
      es.foldlM (fun acc p => step acc p.1 p.2) t0 = some tr →
      WF hf tr ∧
      (∀ k, retrieve_value hf tr k =
        match lookupB k es with
        | some v => some v
        | none => retrieve_value hf t0 k) ∧
      tr.element_count = t0.element_count + es.length ∧
      tr.max_load_factor = t0.max_load_factor := by
  intro es
  induction es with
  | nil =>
      intro t0 tr hwf _ _ hfold
      simp only [List.foldlM_nil] at hfold
      cases hfold
      exact ⟨hwf, fun k => by simp [lookupB], by simp, rfl⟩
  | cons p es ih =>
      intro t0 tr hwf hnd hfresh hfold
      rw [List.foldlM_cons] at hfold
      obtain ⟨acc, hacc, hrest⟩ := Option.bind_eq_some.mp hfold
      obtain ⟨hwfa, hreta, hcnta, hmaxa⟩ := hstep t0 p.1 p.2 acc hwf hacc
      simp only [List.map_cons, List.nodup_cons] at hnd
      have hfresh0 : retrieve_value hf t0 p.1 = none := hfresh p (by simp)
      have hfresh' : ∀ q ∈ es, retrieve_value hf acc q.1 = none := by
        intro q hq
        rw [hreta q.1]
        have hqp : q.1 ≠ p.1 := by
          intro hqp
          exact hnd.1 (hqp ▸ List.mem_map.mpr ⟨q, hq, rfl⟩)
        rw [if_neg hqp]
        exact hfresh q (by simp [hq])
      obtain ⟨hwfr, hretr, hcntr, hmaxr⟩ := ih acc tr hwfa hnd.2 hfresh' hrest
      refine ⟨hwfr, ?_, ?_, hmaxr.trans hmaxa⟩
      · intro k
        rw [hretr k]
        by_cases hk : k = p.1
        · have hkes : k ∉ es.map Prod.fst := by rw [hk]; exact hnd.1
          have hes : lookupB k es = none := lookupB_eq_none_of_not_mem_keys hkes
          rw [hes, hreta k, if_pos hk]
          simp only [lookupB, if_pos hk.symm]
        · have hpk : ¬(p.1 = k) := fun h => hk h.symm
          simp only [lookupB, if_neg hpk]
          cases hes : lookupB k es with
          | some v => rfl
          | none => simp [hreta k, hk]
      · rw [hcntr, hcnta, hfresh0]
        simp [List.length_cons]
        omega

theorem add_entry_spec (hf : String → Nat → Nat) (hh : GoodHash hf) :
    ∀ (f : Nat) (t : Chain V) (k : String) (v : V) (t' : Chain V),
      WF hf t → add_entry hf f t k v = some t' → AddEntrySpec hf t k v t' := by
  intro f
  induction f with
  | zero =>
      intro t k v t' hwf hadd
      simp only [add_entry] at hadd
      by_cases hload : current_load_factor t > t.max_load_factor
      · rw [if_pos hload] at hadd; cases hadd
      · rw [if_neg hload] at hadd
        cases hadd
        exact insertNoResize_addSpec hf k v hwf hh
  | succ f ih =>
      intro t k v t' hwf hadd
      simp only [add_entry] at hadd
      by_cases hload : current_load_factor t > t.max_load_factor
      · rw [if_pos hload] at hadd
        obtain ⟨tr, hfold, rfl⟩ := Option.map_eq_some'.mp hadd
        have hwf0 : WF hf (init (2 * t.capacity) t.max_load_factor : Chain V) :=
          WF_init hf _ _ (by have := hwf.2.1; omega)
        have hfoldspec := foldlM_add_spec hf (add_entry hf f)
          (fun a b c d hw ha => ih a b c d hw ha)
          t.storage.flatten (init (2 * t.capacity) t.max_load_factor) tr hwf0
          (nodup_flatten_keys hwf)
          (fun p _ => retrieve_init hf _ _ p.1) hfold
        obtain ⟨hwfr, hretr, hcntr, hmaxr⟩ := hfoldspec
        have hret_tr : ∀ k', retrieve_value hf tr k' = retrieve_value hf t k' := by
          intro k'
          rw [hretr k', retrieve_eq_flatten_lookup hwf hh k']
          cases hes : lookupB k' t.storage.flatten with
          | some v => rfl
          | none => exact retrieve_init hf _ _ k'
        refine ⟨WF_insertNoResize hf k v hwfr hh, ?_, ?_, ?_⟩
        · intro k'
          rw [retrieve_insertNoResize hf tr k v k' hwfr.1 hwfr.2.1 hh]
          by_cases hk : k' = k
          · simp [hk]
          · simp [hk, hret_tr k']
        · rw [count_insertNoResize, hret_tr k, hcntr]
          have : (init (2 * t.capacity) t.max_load_factor : Chain V).element_count = 0 := rfl
          rw [this, hwf.2.2.1]
          omega
        · rw [max_insertNoResize, hmaxr]
          rfl
      · rw [if_neg hload] at hadd
        cases hadd
        exact insertNoResize_addSpec hf k v hwf hh

theorem remove_entry_snd (hf : String → Nat → Nat) (t : Chain V) (k : String) :
    (remove_entry hf t k).2 = (retrieve_value hf t k).isSome := by
  rw [← hasKeyB_eq_isSome_retrieve]
  by_cases h : hasKeyB k (bucket t (hf k t.capacity)) <;>
    simp [remove_entry, h]

theorem remove_entry_retrieve (hf : String → Nat → Nat) {t : Chain V}
    (k : String) (hwf : WF hf t) (hh : GoodHash hf) (k' : String) :
    retrieve_value hf (remove_entry hf t k).1 k' =
      if k' = k then none else retrieve_value hf t k' := by
  obtain ⟨hlen, hcap, _, _, hnd⟩ := hwf
  have hi : hf k t.capacity < t.storage.length := by
    rw [hlen]; exact hh k _ hcap
  by_cases h : hasKeyB k (bucket t (hf k t.capacity))
  · have hfst : (remove_entry hf t k).1 = Chain.mk t.capacity t.max_load_factor (t.storage.set (hf k t.capacity) (removeFirst k (bucket t (hf k t.capacity)))) (t.element_count - 1) := by
      simp [remove_entry, h]
    rw [hfst]
    show lookupB k' ((t.storage.set _ _).getD (hf k' t.capacity) []) = _
    rw [getD_set_of_lt _ _ hi]
    by_cases hk : k' = k
    · rw [if_pos hk, if_pos (by rw [hk]), hk]
      exact lookupB_removeFirst_self (hnd _)
    · rw [if_neg hk]
      by_cases hj : hf k' t.capacity = hf k t.capacity
      · rw [if_pos hj, lookupB_removeFirst_other hk, retrieve_value, hj]
      · rw [if_neg hj]
        rfl
  · have hfst : (remove_entry hf t k).1 = t := by simp [remove_entry, h]
    rw [hfst]
    by_cases hk : k' = k
    · rw [if_pos hk, hk, retrieve_value]
      exact lookupB_eq_none_of_not_hasKeyB (by simpa using h)
    · rw [if_neg hk]

theorem remove_entry_WF (hf : String → Nat → Nat) {t : Chain V} (k : String)
    (hwf : WF hf t) (hh : GoodHash hf) : WF hf (remove_entry hf t k).1 := by
  obtain ⟨hlen, hcap, hcount, hplace, hnd⟩ := hwf
  have hi : hf k t.capacity < t.storage.length := by
    rw [hlen]; exact hh k _ hcap
  by_cases h : hasKeyB k (bucket t (hf k t.capacity))
  · have hfst : (remove_entry hf t k).1 = Chain.mk t.capacity t.max_load_factor (t.storage.set (hf k t.capacity) (removeFirst k (bucket t (hf k t.capacity)))) (t.element_count - 1) := by
      simp [remove_entry, h]
    rw [hfst]
    refine ⟨by simpa using hlen, hcap, ?_, ?_, ?_⟩
    · have hfl := flatten_length_set t.storage (hf k t.capacity)
        (removeFirst k (bucket t (hf k t.capacity))) hi
      have hrl := length_removeFirst (b := bucket t (hf k t.capacity)) h
      simp only [bucket] at hfl hrl ⊢
      omega
    · intro j p hp
      show hf p.1 t.capacity = j
      simp only [bucket, getD_set_of_lt _ _ hi] at hp
      by_cases hj : j = hf k t.capacity
      · rw [if_pos hj] at hp
        rw [hplace _ p (mem_removeFirst hp), hj]
      · rw [if_neg hj] at hp
        exact hplace _ p hp
    · intro j
      show ((((t.storage.set _ _).getD j [])).map Prod.fst).Nodup
      rw [getD_set_of_lt _ _ hi]
      by_cases hj : j = hf k t.capacity
      · rw [if_pos hj]
        exact keys_removeFirst_nodup (hnd _)
      · rw [if_neg hj]
        exact hnd j
  · have hfst : (remove_entry hf t k).1 = t := by simp [remove_entry, h]
    rw [hfst]
    exact ⟨hlen, hcap, hcount, hplace, hnd⟩

theorem remove_entry_count_le (hf : String → Nat → Nat) (t : Chain V)
    (k : String) : (remove_entry hf t k).1.element_count ≤ t.element_count := by
  by_cases h : hasKeyB k (bucket t (hf k t.capacity)) <;>
    simp [remove_entry, h]

theorem remove_entry_capacity (hf : String → Nat → Nat) (t : Chain V)
    (k : String) : (remove_entry hf t k).1.capacity = t.capacity := by
  by_cases h : hasKeyB k (bucket t (hf k t.capacity)) <;>
    simp [remove_entry, h]

theorem remove_entry_max (hf : String → Nat → Nat) (t : Chain V)
    (k : String) : (remove_entry hf t k).1.max_load_factor = t.max_load_factor := by
  by_cases h : hasKeyB k (bucket t (hf k t.capacity)) <;>
    simp [remove_entry, h]

theorem add_entry_of_low_load (hf : String → Nat → Nat) (f : Nat) (t : Chain V)
    (k : String) (v : V)
    (hload : ¬current_load_factor t > t.max_load_factor) :
    add_entry hf f t k v = some (insertNoResize hf t k v) := by
  cases f <;> simp [add_entry, hload]

theorem foldlM_add_total (hf : String → Nat → Nat) (hh : GoodHash hf) (f : Nat) :
    ∀ (es : List (String × V)) (t0 : Chain V), WF hf t0 →
      (es.map Prod.fst).Nodup →
      (∀ p ∈ es, retrieve_value hf t0 p.1 = none) →
      (∀ j, j < es.length →
        ((t0.element_count + j : ℚ)) / t0.capacity ≤ t0.max_load_factor) →
      ∃ tr, es.foldlM (fun acc p => add_entry hf f acc p.1 p.2) t0 = some tr ∧
        tr.capacity = t0.capacity ∧
        tr.element_count = t0.element_count + es.length ∧
        WF hf tr ∧ tr.max_load_factor = t0.max_load_factor := by
  intro es
  induction es with
  | nil =>
      intro t0 hwf _ _ _
      exact ⟨t0, by simp, rfl, by simp, hwf, rfl⟩
  | cons p es ih =>
      intro t0 hwf hnd hfresh hload
      have hload0 : ¬current_load_factor t0 > t0.max_load_factor := by
        have := hload 0 (by simp)
        rw [current_load_factor]
        push_neg
        simpa using this
      have hstep := add_entry_of_low_load hf f t0 p.1 p.2 hload0
      set acc := insertNoResize hf t0 p.1 p.2 with hacc
      have hwfa : WF hf acc := WF_insertNoResize hf p.1 p.2 hwf hh
      have hcnta : acc.element_count = t0.element_count + 1 := by
        rw [hacc, count_insertNoResize, hfresh p (by simp)]
        rfl
      have hcapa : acc.capacity = t0.capacity := rfl
      have hmaxa : acc.max_load_factor = t0.max_load_factor := rfl
      simp only [List.map_cons, List.nodup_cons] at hnd
      have hfresh' : ∀ q ∈ es, retrieve_value hf acc q.1 = none := by
        intro q hq
        rw [hacc, retrieve_insertNoResize hf t0 p.1 p.2 q.1 hwf.1 hwf.2.1 hh]
        have hqp : q.1 ≠ p.1 := by
          intro hqp
          exact hnd.1 (hqp ▸ List.mem_map.mpr ⟨q, hq, rfl⟩)
        rw [if_neg hqp]
        exact hfresh q (by simp [hq])
      have hload' : ∀ j, j < es.length →
          ((acc.element_count + j : ℚ)) / acc.capacity ≤ acc.max_load_factor := by
        intro j hj
        have h2 := hload (j + 1) (by simpa using Nat.succ_lt_succ hj)
        rw [hcnta, hcapa, hmaxa]
        push_cast at h2 ⊢
        have heq : (t0.element_count : ℚ) + 1 + (j : ℚ)
            = (t0.element_count : ℚ) + ((j : ℚ) + 1) := by ring
        rw [heq]
        exact h2
      obtain ⟨tr, hfold, hcapr, hcntr, hwfr, hmaxr⟩ := ih acc hwfa hnd.2 hfresh' hload'
      refine ⟨tr, ?_, hcapr.trans hcapa, ?_, hwfr, hmaxr.trans hmaxa⟩
      · rw [List.foldlM_cons, hstep]
        exact hfold
      · rw [hcntr, hcnta, List.length_cons]
        omega

theorem count_le_of_load_le {t : Chain V}
    (hcap : 1 ≤ t.capacity)
    (h : ¬current_load_factor t > t.max_load_factor) :
    (t.element_count : ℚ) ≤ t.max_load_factor * t.capacity := by
  rw [current_load_factor] at h
  push_neg at h
  have hc : (0 : ℚ) < (t.capacity : ℚ) := by
    have : (1 : ℚ) ≤ (t.capacity : ℚ) := by exact_mod_cast hcap
    linarith
  calc (t.element_count : ℚ)
      = ((t.element_count : ℚ) / t.capacity) * t.capacity := by
        field_simp
    _ ≤ t.max_load_factor * t.capacity := by
        apply mul_le_mul_of_nonneg_right h (le_of_lt hc)

theorem chainInv_add (hf : String → Nat → Nat) (hh : GoodHash hf) {t t' : Chain V}
    {f : Nat} {k : String} {v : V} (hInv : ChainInv hf t)
    (hadd : add_entry hf f t k v = some t') : ChainInv hf t' := by
  obtain ⟨hwf, hm, hcnt⟩ := hInv
  have hcap := hwf.2.1
  have hc : (0 : ℚ) < (t.capacity : ℚ) := by
    have : (1 : ℚ) ≤ (t.capacity : ℚ) := by exact_mod_cast hcap
    linarith
  by_cases hload : current_load_factor t > t.max_load_factor
  · cases f with
    | zero => simp [add_entry, hload] at hadd
    | succ f =>
        simp only [add_entry, if_pos hload] at hadd
        obtain ⟨tr, hfold, rfl⟩ := Option.map_eq_some'.mp hadd
        have hwf0 : WF hf (init (2 * t.capacity) t.max_load_factor : Chain V) :=
          WF_init hf _ _ (by omega)
        have hn : (t.storage.flatten.length : ℚ) ≤ t.max_load_factor * t.capacity + 1 := by
          rw [← hwf.2.2.1]; exact hcnt
        have hmax0 : (0 : ℚ) ≤ t.max_load_factor := le_trans (by norm_num) hm
        have hload0 : ∀ j, j < t.storage.flatten.length →
            (((init (2 * t.capacity) t.max_load_factor : Chain V).element_count + j : ℚ))
              / (init (2 * t.capacity) t.max_load_factor : Chain V).capacity
              ≤ (init (2 * t.capacity) t.max_load_factor : Chain V).max_load_factor := by
          intro j hj
          show ((0 + j : ℚ)) / ((2 * t.capacity : Nat) : ℚ) ≤ t.max_load_factor
          have hj' : (j : ℚ) ≤ t.max_load_factor * t.capacity := by
            have h1 : (j : ℚ) + 1 ≤ (t.storage.flatten.length : ℚ) := by
              exact_mod_cast Nat.succ_le_of_lt hj
            linarith
          have h2c : (0 : ℚ) < ((2 * t.capacity : Nat) : ℚ) := by
            push_cast; linarith
          rw [div_le_iff h2c]
          push_cast
          nlinarith
        obtain ⟨tr', hfold', hcapr, hcntr, hwfr, hmaxr⟩ :=
          foldlM_add_total hf hh f t.storage.flatten
            (init (2 * t.capacity) t.max_load_factor) hwf0
            (nodup_flatten_keys hwf) (fun p _ => retrieve_init hf _ _ p.1) hload0
        rw [hfold] at hfold'
        cases hfold'
        have hcap2 : tr.capacity = 2 * t.capacity := hcapr
        have hcnt2 : tr.element_count = t.storage.flatten.length := by
          rw [hcntr]
          show 0 + _ = _
          omega
        have hmax2 : tr.max_load_factor = t.max_load_factor := hmaxr
        refine ⟨WF_insertNoResize hf k v hwfr hh, ?_, ?_⟩
        · rw [max_insertNoResize, hmax2]; exact hm
        · rw [count_insertNoResize, max_insertNoResize, capacity_insertNoResize,
            hcap2, hmax2, hcnt2]
          have hn2 : (t.storage.flatten.length : ℚ) ≤ 2 * (t.max_load_factor * t.capacity) := by
            by_cases h1 : 1 ≤ t.max_load_factor * t.capacity
            · linarith
            · push_neg at h1
              have hsmall : (t.storage.flatten.length : ℚ) < 2 := by linarith
              have hlt2 : t.storage.flatten.length < 2 := by exact_mod_cast hsmall
              have hle1 : t.storage.flatten.length ≤ 1 := by omega
              have hge : (1 : ℚ) / 2 * 1 ≤ t.max_load_factor * t.capacity := by
                apply mul_le_mul hm (by exact_mod_cast hcap) (by norm_num) hmax0
              have : (t.storage.flatten.length : ℚ) ≤ 1 := by exact_mod_cast hle1
              linarith
          by_cases hkey : (retrieve_value hf tr k).isSome <;>
            simp only [hkey, ite_true, ite_false] <;> push_cast <;> nlinarith
  · have := add_entry_of_low_load hf f t k v hload
    rw [this] at hadd
    cases hadd
    refine ⟨WF_insertNoResize hf k v hwf hh, hm, ?_⟩
    rw [count_insertNoResize, max_insertNoResize, capacity_insertNoResize]
    have hb := count_le_of_load_le hcap hload
    by_cases hkey : (retrieve_value hf t k).isSome <;>
      simp only [hkey, ite_true, ite_false] <;> push_cast <;> linarith

theorem chainInv_init (hf : String → Nat → Nat) (c : Nat) (m : ℚ)
    (hc : 1 ≤ c) (hm : 1/2 ≤ m) : ChainInv hf (init c m : Chain V) := by
  refine ⟨WF_init hf c m hc, hm, ?_⟩
  show ((0 : Nat) : ℚ) ≤ m * c + 1
  have hc' : (1 : ℚ) ≤ (c : ℚ) := by exact_mod_cast hc
  have hm0 : (0 : ℚ) ≤ m := by linarith
  have hmc : (0 : ℚ) ≤ m * c := mul_nonneg hm0 (by linarith)
  push_cast
  linarith

theorem chainInv_remove (hf : String → Nat → Nat) (hh : GoodHash hf)
    {t : Chain V} (k : String) (hInv : ChainInv hf t) :
    ChainInv hf (remove_entry hf t k).1 := by
  obtain ⟨hwf, hm, hcnt⟩ := hInv
  refine ⟨remove_entry_WF hf k hwf hh, by rw [remove_entry_max]; exact hm, ?_⟩
  rw [remove_entry_max, remove_entry_capacity]
  have hle := remove_entry_count_le hf t k
  have : ((remove_entry hf t k).1.element_count : ℚ) ≤ (t.element_count : ℚ) := by
    exact_mod_cast hle
  linarith

theorem reachable_chainInv (hf : String → Nat → Nat) (hh : GoodHash hf)
    {t : Chain V} (hr : Reachable hf t) : ChainInv hf t := by
  induction hr with
  | init c m hc hm => exact chainInv_init hf c m hc hm
  | add t t' f k v _ hadd ih => exact chainInv_add hf hh ih hadd
  | remove t k _ ih => exact chainInv_remove hf hh k ih

end Chaining

theorem goodHash_poly : GoodHash compute_polynomial_based_hash := by
  intro k c hc
  have h0 : 0 < c := hc
  unfold compute_polynomial_based_hash
  suffices h : ∀ (l : List Char) (a : Nat), a < c →
      l.foldl (fun h ch => (h * 31 + ch.toNat) % c) a < c by
    exact h (chars k) 0 h0
  intro l
  induction l with
  | nil => intro a ha; exact ha
  | cons ch rest ih => intro a _; exact ih _ (Nat.mod_lt _ h0)

namespace OpenAddr

variable {V : Type}

theorem goodProbe_linear (hf : String → Nat → Nat) :
    GoodProbe (linearProbe hf) := by
  intro k c a hc
  exact Nat.mod_lt _ hc

theorem goodProbe_double : GoodProbe doubleProbe := by
  intro k c a hc
  unfold doubleProbe
  exact Nat.mod_lt _ hc

theorem slotAt_mem {t : OA V} {i : Nat} (h : i < t.storage.length) :
    slotAt t i ∈ t.storage := by
  rw [slotAt, List.getD_eq_getElem?_getD, List.getElem?_eq_getElem h]
  exact List.getElem_mem h

theorem slotAt_eq_empty_of_ge {t : OA V} {i : Nat} (h : t.storage.length ≤ i) :
    slotAt t i = Slot.empty := by
  rw [slotAt, List.getD_eq_getElem?_getD, List.getElem?_eq_none h]
  rfl

theorem capacity_placeAt (t : OA V) (i : Nat) (k : String) (v : V) :
    (placeAt t i k v).capacity = t.capacity := rfl

theorem max_placeAt (t : OA V) (i : Nat) (k : String) (v : V) :
    (placeAt t i k v).max_load_factor = t.max_load_factor := rfl

theorem storage_placeAt (t : OA V) (i : Nat) (k : String) (v : V) :
    (placeAt t i k v).storage = t.storage.set i (.entry k v) := rfl

theorem length_placeAt (t : OA V) (i : Nat) (k : String) (v : V) :
    (placeAt t i k v).storage.length = t.storage.length := by
  rw [storage_placeAt, List.length_set]

theorem count_placeAt (t : OA V) (i : Nat) (k : String) (v : V) :
    (placeAt t i k v).element_count =
      t.element_count + (if isEntry (slotAt t i) then 0 else 1) := by
  show t.element_count + _ = _
  cases h : slotAt t i <;> simp [placeAt, slotAt] at h ⊢ <;> simp [h, isEntry]

theorem slotAt_placeAt {t : OA V} {i : Nat} (hi : i < t.storage.length)
    (k : String) (v : V) (j : Nat) :
    slotAt (placeAt t i k v) j = if j = i then .entry k v else slotAt t j := by
  show (t.storage.set i (.entry k v)).getD j .empty = _
  rw [Chaining.getD_set_of_lt _ _ hi]
  rfl

theorem findAux_cons (t : OA V) (k : String) (i : Nat) (rest : List Nat) :
    findAux t k (i :: rest) =
      match slotAt t i with
      | .empty => none
      | .deleted => findAux t k rest
      | .entry k' v => if k' = k then some v else findAux t k rest := rfl

theorem findAux_cons_of_empty {t : OA V} {k : String} {i : Nat}
    {rest : List Nat} (hslot : slotAt t i = .empty) :
    findAux t k (i :: rest) = none := by
  rw [findAux_cons, hslot]

theorem findAux_cons_of_deleted {t : OA V} {k : String} {i : Nat}
    {rest : List Nat} (hslot : slotAt t i = .deleted) :
    findAux t k (i :: rest) = findAux t k rest := by
  rw [findAux_cons, hslot]

theorem findAux_cons_of_entry {t : OA V} {k k' : String} {w : V} {i : Nat}
    {rest : List Nat} (hslot : slotAt t i = .entry k' w) :
    findAux t k (i :: rest) = if k' = k then some w else findAux t k rest := by
  rw [findAux_cons, hslot]

theorem slot_not_accepts {s : Slot V} {k : String}
    (h : ¬slotAccepts s k = true) : ∃ k' w, s = .entry k' w ∧ k' ≠ k := by
  cases s with
  | empty => exact absurd rfl h
  | deleted => exact absurd rfl h
  | entry k' w => exact ⟨k', w, rfl, by simpa [slotAccepts] using h⟩

theorem findAux_none_of_noKey {t : OA V}
    {k : String} (hnk : ∀ s ∈ t.storage, isEntryKey k s = false) :
    ∀ idxs, findAux t k idxs = none := by
  intro idxs
  induction idxs with
  | nil => rfl
  | cons i rest ih =>
      show findAux t k (i :: rest) = none
      by_cases hi : i < t.storage.length
      · have hmem := slotAt_mem hi
        cases hslot : slotAt t i with
        | empty => simp [findAux, hslot]
        | deleted => simp [findAux, hslot, ih]
        | entry k' w =>
            have := hnk _ (hslot ▸ hmem)
            simp only [isEntryKey] at this
            have hk' : ¬(k' = k) := by simpa using this
            simp [findAux, hslot, hk', ih]
      · rw [findAux, slotAt_eq_empty_of_ge (by omega)]

theorem find_element_none_of_noKey (probe : String → Nat → Nat → Nat)
    {t : OA V} {k : String}
    (hnk : ∀ s ∈ t.storage, isEntryKey k s = false) :
    find_element probe t k = none :=
  findAux_none_of_noKey hnk _

theorem findAux_some_mem {t : OA V} {k : String} {v : V} :
    ∀ {idxs}, findAux t k idxs = some v → Slot.entry k v ∈ t.storage := by
  intro idxs
  induction idxs with
  | nil => intro h; cases h
  | cons i rest ih =>
      intro h
      cases hslot : slotAt t i with
      | empty => rw [findAux_cons_of_empty hslot] at h; cases h
      | deleted => rw [findAux_cons_of_deleted hslot] at h; exact ih h
      | entry k' w =>
          rw [findAux_cons_of_entry hslot] at h
          by_cases hk : k' = k
          · rw [if_pos hk] at h
            cases h
            by_cases hi : i < t.storage.length
            · have := slotAt_mem hi
              rw [hslot, hk] at this
              exact this
            · rw [slotAt_eq_empty_of_ge (by omega)] at hslot
              cases hslot
          · rw [if_neg hk] at h
            exact ih h

theorem find_element_some_mem {probe : String → Nat → Nat → Nat} {t : OA V}
    {k : String} {v : V} (h : find_element probe t k = some v) :
    Slot.entry k v ∈ t.storage :=
  findAux_some_mem h

theorem findIdxA_some_accepts {t : OA V} {k : String} {i : Nat} :
    ∀ {idxs}, findIdxA t k idxs = some i →
      slotAccepts (slotAt t i) k = true ∧ i ∈ idxs := by
  intro idxs
  induction idxs with
  | nil => intro h; cases h
  | cons j rest ih =>
      intro h
      rw [findIdxA] at h
      by_cases hacc : slotAccepts (slotAt t j) k
      · rw [if_pos hacc] at h
        cases h
        exact ⟨hacc, by simp⟩
      · rw [if_neg hacc] at h
        obtain ⟨h1, h2⟩ := ih h
        exact ⟨h1, by simp [h2]⟩

theorem findAux_placeAt_self {t : OA V} {i : Nat} {k : String} (v : V)
    (hi : i < t.storage.length) :
    ∀ {idxs}, findIdxA t k idxs = some i →
      findAux (placeAt t i k v) k idxs = some v := by
  intro idxs
  induction idxs with
  | nil => intro h; cases h
  | cons j rest ih =>
      intro h
      rw [findIdxA] at h
      by_cases hacc : slotAccepts (slotAt t j) k
      · rw [if_pos hacc] at h
        cases h
        have hslot2 : slotAt (placeAt t i k v) i = .entry k v := by
          rw [slotAt_placeAt hi, if_pos rfl]
        rw [findAux_cons_of_entry hslot2, if_pos rfl]
      · rw [if_neg hacc] at h
        have hne : j ≠ i := by
          intro hji
          exact hacc (hji ▸ (findIdxA_some_accepts h).1)
        obtain ⟨k', w, hslot, hk'⟩ := slot_not_accepts hacc
        have hslot' : slotAt (placeAt t i k v) j = .entry k' w := by
          rw [slotAt_placeAt hi, if_neg hne]
          exact hslot
        rw [findAux_cons_of_entry hslot', if_neg (fun h => hk' h)]
        exact ih h

theorem findAux_placeAt_overwrite {t : OA V} {i : Nat} {k k' : String}
    {w : V} (v : V) (hi : i < t.storage.length)
    (hslot : slotAt t i = .entry k w) (hne : k' ≠ k) :
    ∀ idxs, findAux (placeAt t i k v) k' idxs = findAux t k' idxs := by
  intro idxs
  induction idxs with
  | nil => rfl
  | cons j rest ih =>
      by_cases hj : j = i
      · have h1 : slotAt (placeAt t i k v) j = .entry k v := by
          rw [slotAt_placeAt hi, if_pos hj]
        have h2 : slotAt t j = .entry k w := by rw [hj]; exact hslot
        rw [findAux_cons_of_entry h1, findAux_cons_of_entry h2,
          if_neg (fun h => hne h.symm), if_neg (fun h => hne h.symm)]
        exact ih
      · have h1 : slotAt (placeAt t i k v) j = slotAt t j := by
          rw [slotAt_placeAt hi, if_neg hj]
        cases hslot' : slotAt t j with
        | empty =>
            rw [findAux_cons_of_empty (h1.trans hslot'),
              findAux_cons_of_empty hslot']
        | deleted =>
            rw [findAux_cons_of_deleted (h1.trans hslot'),
              findAux_cons_of_deleted hslot']
            exact ih
        | entry a b =>
            rw [findAux_cons_of_entry (h1.trans hslot'),
              findAux_cons_of_entry hslot']
            by_cases ha : a = k'
            · rw [if_pos ha, if_pos ha]
            · rw [if_neg ha, if_neg ha]
              exact ih

theorem findAux_placeAt_mono_of_empty {t : OA V} {i : Nat} {k k' : String}
    (v : V) (hi : i < t.storage.length) (hslot : slotAt t i = .empty) :
    ∀ idxs (v' : V), findAux t k' idxs = some v' →
      findAux (placeAt t i k v) k' idxs = some v' := by
  intro idxs
  induction idxs with
  | nil => intro v' h; cases h
  | cons j rest ih =>
      intro v' h
      by_cases hj : j = i
      · rw [findAux_cons_of_empty (hj ▸ hslot)] at h
        cases h
      · have h1 : slotAt (placeAt t i k v) j = slotAt t j := by
          rw [slotAt_placeAt hi, if_neg hj]
        cases hslot' : slotAt t j with
        | empty =>
            rw [findAux_cons_of_empty hslot'] at h
            cases h
        | deleted =>
            rw [findAux_cons_of_deleted hslot'] at h
            rw [findAux_cons_of_deleted (h1.trans hslot')]
            exact ih v' h
        | entry a b =>
            rw [findAux_cons_of_entry hslot'] at h
            rw [findAux_cons_of_entry (h1.trans hslot')]
            by_cases ha : a = k'
            · rw [if_pos ha] at h ⊢
              exact h
            · rw [if_neg ha] at h ⊢
              exact ih v' h

theorem sumW_set {α : Type} (w : α → Nat) (l : List α) (i : Nat) (a : α)
    (h : i < l.length) (d : α) :
    sumW w (l.set i a) + w (l.getD i d) = sumW w l + w a := by
  induction l generalizing i with
  | nil => simp at h
  | cons x xs ih =>
      cases i with
      | zero =>
          rw [List.set_cons_zero, List.getD_cons_zero]
          show w a + sumW w xs + w x = w x + sumW w xs + w a
          omega
      | succ i =>
          have hi : i < xs.length := by simpa using h
          have hrec := ih i hi
          rw [List.set_cons_succ, List.getD_cons_succ]
          show w x + sumW w (xs.set i a) + _ = w x + sumW w xs + w a
          omega

theorem sumW_ge_getD {α : Type} (w : α → Nat) (l : List α) (i : Nat)
    (h : i < l.length) (d : α) :
    w (l.getD i d) ≤ sumW w l := by
  induction l generalizing i with
  | nil => simp at h
  | cons x xs ih =>
      cases i with
      | zero =>
          rw [List.getD_cons_zero]
          show w x ≤ w x + sumW w xs
          omega
      | succ i =>
          have hi : i < xs.length := by simpa using h
          have hrec := ih i hi
          rw [List.getD_cons_succ]
          show _ ≤ w x + sumW w xs
          omega

theorem sumW_two_le {α : Type} (w : α → Nat) (l : List α) {i j : Nat}
    (hij : i ≠ j) (hi : i < l.length) (hj : j < l.length) (d : α) :
    w (l.getD i d) + w (l.getD j d) ≤ sumW w l := by
  induction l generalizing i j with
  | nil => simp at hi
  | cons x xs ih =>
      cases i with
      | zero =>
          cases j with
          | zero => exact absurd rfl hij
          | succ j =>
              have hj' : j < xs.length := by simpa using hj
              have h1 := sumW_ge_getD w xs j hj' d
              rw [List.getD_cons_zero, List.getD_cons_succ]
              show w x + _ ≤ w x + sumW w xs
              omega
      | succ i =>
          cases j with
          | zero =>
              have hi' : i < xs.length := by simpa using hi
              have h1 := sumW_ge_getD w xs i hi' d
              rw [List.getD_cons_zero, List.getD_cons_succ]
              show _ + w x ≤ w x + sumW w xs
              omega
          | succ j =>
              have hi' : i < xs.length := by simpa using hi
              have hj' : j < xs.length := by simpa using hj
              have hrec := ih (by omega) hi' hj'
              rw [List.getD_cons_succ, List.getD_cons_succ]
              show _ ≤ w x + sumW w xs
              omega

theorem length_liveEntries_eq_sumW (t : OA V) :
    (liveEntries t).length = sumW entryWeight t.storage := by
  rw [liveEntries]
  induction t.storage with
  | nil => rfl
  | cons s rest ih =>
      cases s <;>
        simp [List.filterMap_cons, entryOf, entryWeight, sumW, ih] <;> omega

theorem sumW_pairKey_liveEntries (t : OA V) (k : String) :
    sumW (pairKeyWeight k) (liveEntries t) = keyCount t k := by
  rw [liveEntries, keyCount]
  induction t.storage with
  | nil => rfl
  | cons s rest ih =>
      cases s with
      | empty => simpa [List.filterMap_cons, entryOf, keyWeight, sumW] using ih
      | deleted => simpa [List.filterMap_cons, entryOf, keyWeight, sumW] using ih
      | entry k' w =>
          by_cases hk : k' = k <;>
            simp [List.filterMap_cons, entryOf, keyWeight, sumW, pairKeyWeight, hk, ih]

theorem sumW_pairKey_pos_of_mem {es : List (String × V)} {k : String} {v : V}
    (hmem : (k, v) ∈ es) : 1 ≤ sumW (pairKeyWeight k) es := by
  induction es with
  | nil => simp at hmem
  | cons p rest ih =>
      rcases List.mem_cons.mp hmem with rfl | hmem'
      · show pairKeyWeight k (k, v) + _ ≥ 1
        rw [pairKeyWeight, if_pos rfl]
        omega
      · have := ih hmem'
        show pairKeyWeight k p + _ ≥ 1
        omega

theorem sumW_pairKey_zero_of_fresh {es : List (String × V)} {k : String}
    (h : ∀ q ∈ es, q.1 ≠ k) : sumW (pairKeyWeight k) es = 0 := by
  induction es with
  | nil => rfl
  | cons p rest ih =>
      show pairKeyWeight k p + _ = 0
      rw [pairKeyWeight, if_neg (h p (by simp))]
      simpa using ih (fun q hq => h q (by simp [hq]))

theorem keysUniq_of_nodup {es : List (String × V)}
    (h : (es.map Prod.fst).Nodup) (a : String) :
    sumW (pairKeyWeight a) es ≤ 1 := by
  induction es with
  | nil => simp [sumW]
  | cons p rest ih =>
      simp only [List.map_cons, List.nodup_cons] at h
      have hrest := ih h.2
      show pairKeyWeight a p + _ ≤ 1
      by_cases hp : p.1 = a
      · rw [pairKeyWeight, if_pos hp]
        have hz : sumW (pairKeyWeight a) rest = 0 := by
          apply sumW_pairKey_zero_of_fresh
          intro q hq hq1
          apply h.1
          have hm : q.1 ∈ List.map Prod.fst rest := List.mem_map.mpr ⟨q, hq, rfl⟩
          rwa [hq1, ← hp] at hm
        omega
      · rw [pairKeyWeight, if_neg hp]
        omega

theorem lookupB_eq_some_of_mem_uniq {es : List (String × V)} {k : String}
    {v : V} (hmem : (k, v) ∈ es)
    (h : ∀ a, sumW (pairKeyWeight a) es ≤ 1) :
    Chaining.lookupB k es = some v := by
  induction es with
  | nil => simp at hmem
  | cons p rest ih =>
      rcases List.mem_cons.mp hmem with rfl | hmem'
      · simp [Chaining.lookupB]
      · by_cases hp : p.1 = k
        · exfalso
          have hpos := sumW_pairKey_pos_of_mem hmem'
          have hk := h k
          have hw : pairKeyWeight k p = 1 := by rw [pairKeyWeight, if_pos hp]
          have : pairKeyWeight k p + sumW (pairKeyWeight k) rest ≤ 1 := hk
          omega
        · rw [Chaining.lookupB, if_neg hp]
          apply ih hmem'
          intro a
          have := h a
          have hcons : pairKeyWeight a p + sumW (pairKeyWeight a) rest ≤ 1 := this
          omega

theorem keysUniq_cons_head {p : String × V} {es : List (String × V)}
    (h : ∀ a, sumW (pairKeyWeight a) ((p :: es)) ≤ 1) :
    ∀ q ∈ es, q.1 ≠ p.1 := by
  intro q hq hq1
  have hpos := sumW_pairKey_pos_of_mem (k := p.1) (v := q.2) (by
    have : q = (p.1, q.2) := by
      cases q
      simp at hq1
      simp [hq1]
    exact this ▸ hq)
  have hk := h p.1
  have hw : pairKeyWeight p.1 p = 1 := by rw [pairKeyWeight, if_pos rfl]
  have hcons : pairKeyWeight p.1 p + sumW (pairKeyWeight p.1) es ≤ 1 := hk
  omega

theorem keysUniq_cons_tail {p : String × V} {es : List (String × V)}
    (h : ∀ a, sumW (pairKeyWeight a) ((p :: es)) ≤ 1) :
    ∀ a, sumW (pairKeyWeight a) es ≤ 1 := by
  intro a
  have hcons : pairKeyWeight a p + sumW (pairKeyWeight a) es ≤ 1 := h a
  omega


theorem Struct_placeAt {t : OA V} (i : Nat) (k : String) (v : V)
    (hs : Struct t) : Struct (placeAt t i k v) := by
  obtain ⟨hlen, hcap⟩ := hs
  exact ⟨by rw [length_placeAt, hlen]; rfl, hcap⟩

theorem Struct_init (c : Nat) (m : ℚ) (hc : 1 ≤ c) :
    Struct (init c m : OA V) :=
  ⟨by simp [init], hc⟩

theorem findInsertIndex_some_lt {probe : String → Nat → Nat → Nat} {t : OA V}
    {k : String} {i : Nat} (hp : GoodProbe probe) (hs : Struct t)
    (h : findInsertIndex probe t k = some i) : i < t.storage.length := by
  obtain ⟨_, hmem⟩ := findIdxA_some_accepts h
  rcases List.mem_map.mp hmem with ⟨a, _, rfl⟩
  rw [hs.1]
  exact hp k t.capacity a hs.2

theorem findInsertIndex_accepts {probe : String → Nat → Nat → Nat} {t : OA V}
    {k : String} {i : Nat} (h : findInsertIndex probe t k = some i) :
    slotAccepts (slotAt t i) k = true :=
  (findIdxA_some_accepts h).1

theorem findAux_none_of_findIdxA_empty {t : OA V} {k : String} {i : Nat}
    (hslot : slotAt t i = .empty) :
    ∀ {idxs}, findIdxA t k idxs = some i → findAux t k idxs = none := by
  intro idxs
  induction idxs with
  | nil => intro h; cases h
  | cons j rest ih =>
      intro h
      rw [findIdxA] at h
      by_cases hacc : slotAccepts (slotAt t j) k
      · rw [if_pos hacc] at h
        cases h
        exact findAux_cons_of_empty hslot
      · rw [if_neg hacc] at h
        obtain ⟨k', w, hslot', hk'⟩ := slot_not_accepts hacc
        rw [findAux_cons_of_entry hslot', if_neg (fun hh => hk' hh)]
        exact ih h

theorem find_element_placeAt_self {probe : String → Nat → Nat → Nat}
    {t : OA V} {k : String} {i : Nat} (v : V) (hi : i < t.storage.length)
    (h : findInsertIndex probe t k = some i) :
    find_element probe (placeAt t i k v) k = some v := by
  rw [find_element, capacity_placeAt]
  exact findAux_placeAt_self v hi h

theorem find_element_placeAt_overwrite {probe : String → Nat → Nat → Nat}
    {t : OA V} {i : Nat} {k k' : String} {w : V} (v : V)
    (hi : i < t.storage.length) (hslot : slotAt t i = .entry k w)
    (hne : k' ≠ k) :
    find_element probe (placeAt t i k v) k' = find_element probe t k' := by
  rw [find_element, find_element, capacity_placeAt]
  exact findAux_placeAt_overwrite v hi hslot hne _

theorem find_element_placeAt_empty_mono {probe : String → Nat → Nat → Nat}
    {t : OA V} {i : Nat} {k k' : String} {v' : V} (v : V)
    (hi : i < t.storage.length) (hslot : slotAt t i = .empty)
    (h : find_element probe t k' = some v') :
    find_element probe (placeAt t i k v) k' = some v' := by
  rw [find_element, capacity_placeAt]
  exact findAux_placeAt_mono_of_empty v hi hslot _ v' h

theorem noEntry_of_keyCount_zero {k : String} :
    ∀ {l : List (Slot V)}, sumW (keyWeight k) l = 0 →
      ∀ s ∈ l, isEntryKey k s = false := by
  intro l
  induction l with
  | nil => intro _ s hs; simp at hs
  | cons x rest ih =>
      intro h s hs
      have hx : keyWeight k x + sumW (keyWeight k) rest = 0 := h
      rcases List.mem_cons.mp hs with rfl | hs'
      · cases s with
        | empty => rfl
        | deleted => rfl
        | entry k' w =>
            by_cases hk : k' = k
            · rw [keyWeight, if_pos hk] at hx
              omega
            · simp [isEntryKey, hk]
      · exact ih (by omega) s hs'

theorem exists_entry_of_keyCount_pos {k : String} :
    ∀ {l : List (Slot V)}, 1 ≤ sumW (keyWeight k) l →
      ∃ j, j < l.length ∧ ∃ w, l.getD j .empty = .entry k w := by
  intro l
  induction l with
  | nil => intro h; simp [sumW] at h
  | cons x rest ih =>
      intro h
      have hx : keyWeight k x + sumW (keyWeight k) rest = _ := rfl
      cases x with
      | empty =>
          have : 1 ≤ sumW (keyWeight k) rest := by
            have : keyWeight k (Slot.empty : Slot V) = 0 := rfl
            have hh : keyWeight k (Slot.empty : Slot V) + sumW (keyWeight k) rest
              = sumW (keyWeight k) (Slot.empty :: rest) := rfl
            omega
          obtain ⟨j, hj, w, hw⟩ := ih this
          exact ⟨j + 1, by simpa using hj, w, by simpa [List.getD_cons_succ] using hw⟩
      | deleted =>
          have : 1 ≤ sumW (keyWeight k) rest := by
            have hh : keyWeight k (Slot.deleted : Slot V) + sumW (keyWeight k) rest
              = sumW (keyWeight k) (Slot.deleted :: rest) := rfl
            have hz : keyWeight k (Slot.deleted : Slot V) = 0 := rfl
            omega
          obtain ⟨j, hj, w, hw⟩ := ih this
          exact ⟨j + 1, by simpa using hj, w, by simpa [List.getD_cons_succ] using hw⟩
      | entry k' w =>
          by_cases hk : k' = k
          · exact ⟨0, by simp, w, by rw [List.getD_cons_zero, hk]⟩
          · have : 1 ≤ sumW (keyWeight k) rest := by
              have hh : keyWeight k (Slot.entry k' w) + sumW (keyWeight k) rest
                = sumW (keyWeight k) (Slot.entry k' w :: rest) := rfl
              have hz : keyWeight k (Slot.entry k' w) = 0 := by
                rw [keyWeight, if_neg hk]
              omega
            obtain ⟨j, hj, w', hw⟩ := ih this
            exact ⟨j + 1, by simpa using hj, w', by simpa [List.getD_cons_succ] using hw⟩

theorem keyCount_zero_of_find_none {probe : String → Nat → Nat → Nat}
    {t : OA V} {k : String}
    (hfind : ∀ j, j < t.storage.length → ∀ k' v',
      t.storage.getD j .empty = Slot.entry k' v' →
      find_element probe t k' = some v')
    (h : find_element probe t k = none) : keyCount t k = 0 := by
  by_contra hne
  have hpos : 1 ≤ sumW (keyWeight k) t.storage := by
    rw [keyCount] at hne
    omega
  obtain ⟨j, hj, w, hw⟩ := exists_entry_of_keyCount_pos hpos
  have := hfind j hj k w hw
  rw [h] at this
  cases this

theorem find_element_placeAt_none {probe : String → Nat → Nat → Nat}
    {t : OA V} {i : Nat} {k k' : String} (v : V)
    (hi : i < t.storage.length) (hne : k' ≠ k)
    (hz : ∀ s ∈ t.storage, isEntryKey k' s = false) :
    find_element probe (placeAt t i k v) k' = none := by
  apply find_element_none_of_noKey probe
  intro s hs
  rw [storage_placeAt] at hs
  rcases List.mem_or_eq_of_mem_set hs with hs' | rfl
  · exact hz s hs'
  · have hkk : ¬(k = k') := fun h => hne h.symm
    simp [isEntryKey, hkk]

theorem cleanPlace {probe : String → Nat → Nat → Nat} {t : OA V} {k : String}
    {i : Nat} (v : V) (hp : GoodProbe probe) (hcl : CleanInv probe t)
    (hidx : findInsertIndex probe t k = some i) :
    CleanAddSpec probe t k v (placeAt t i k v) := by
  obtain ⟨hs, hnd, hcnt, huniq, hfind⟩ := hcl
  have hi : i < t.storage.length := findInsertIndex_some_lt hp hs hidx
  have hacc := findInsertIndex_accepts hidx
  have hf1 : find_element probe (placeAt t i k v) k = some v :=
    find_element_placeAt_self v hi hidx
  have hgetD : t.storage.getD i .empty = slotAt t i := rfl
  cases hslot : slotAt t i with
  | deleted =>
      exact absurd hslot (by
        intro hh
        exact hnd _ (slotAt_mem hi) (by rw [← hh]))
  | entry k0 w =>
      have hk0 : k0 = k := by
        rw [hslot] at hacc
        simpa [slotAccepts] using hacc
      rw [hk0] at hslot
      have hf3 : find_element probe t k = some w :=
        hfind i (by omega) k w (by rw [hgetD, hslot])
      have hf2 : ∀ k', k' ≠ k →
          find_element probe (placeAt t i k v) k' = find_element probe t k' :=
        fun k' hk' => find_element_placeAt_overwrite v hi hslot hk'
      have hcnt' : (placeAt t i k v).element_count = t.element_count := by
        rw [count_placeAt, hslot]
        simp [isEntry]
      have hsum := sumW_set entryWeight t.storage i (.entry k v) hi .empty
      rw [hgetD, hslot] at hsum
      refine ⟨⟨Struct_placeAt i k v hs, ?_, ?_, ?_, ?_⟩, hf1, hf2, ?_, rfl⟩
      · intro s hs'
        rw [storage_placeAt] at hs'
        rcases List.mem_or_eq_of_mem_set hs' with h' | rfl
        · exact hnd s h'
        · simp
      · rw [hcnt', hcnt, storage_placeAt]
        have h1 : entryWeight (Slot.entry k v) = 1 := rfl
        have h2 : entryWeight (Slot.entry k w) = 1 := rfl
        omega
      · intro a
        rw [keyCount, storage_placeAt]
        have hsum2 := sumW_set (keyWeight a) t.storage i (.entry k v) hi .empty
        rw [hgetD, hslot] at hsum2
        have heq : keyWeight a (Slot.entry k v) = keyWeight a (Slot.entry k w) := by
          rw [keyWeight, keyWeight]
        have := huniq a
        rw [keyCount] at this
        omega
      · intro j hj k' v' hj'
        rw [storage_placeAt, List.length_set] at hj
        rw [storage_placeAt, Chaining.getD_set_of_lt _ _ hi] at hj'
        by_cases hij : j = i
        · rw [if_pos hij] at hj'
          cases hj'
          exact hf1
        · rw [if_neg hij] at hj'
          have hk' : k' ≠ k := by
            intro hk'
            subst hk'
            have h2 := sumW_two_le (keyWeight k') t.storage (i := j) (j := i)
              hij hj hi .empty
            rw [hgetD, hslot, hj'] at h2
            have hw1 : keyWeight k' (Slot.entry k' v') = 1 := by
              rw [keyWeight, if_pos rfl]
            have hw2 : keyWeight k' (Slot.entry k' w) = 1 := by
              rw [keyWeight, if_pos rfl]
            have := huniq k'
            rw [keyCount] at this
            omega
          rw [hf2 k' hk']
          exact hfind j hj k' v' hj'
      · rw [hf3]
        simp [hcnt']
  | empty =>
      have hf0 : find_element probe t k = none := by
        rw [find_element]
        exact findAux_none_of_findIdxA_empty hslot hidx
      have hkz : keyCount t k = 0 := keyCount_zero_of_find_none hfind hf0
      have hnok : ∀ s ∈ t.storage, isEntryKey k s = false :=
        noEntry_of_keyCount_zero hkz
      have hcnt' : (placeAt t i k v).element_count = t.element_count + 1 := by
        rw [count_placeAt, hslot]
        simp [isEntry]
      have hf2 : ∀ k', k' ≠ k →
          find_element probe (placeAt t i k v) k' = find_element probe t k' := by
        intro k' hk'
        cases hfk' : find_element probe t k' with
        | some v' => exact find_element_placeAt_empty_mono v hi hslot hfk'
        | none =>
            apply find_element_placeAt_none v hi hk'
            exact noEntry_of_keyCount_zero (keyCount_zero_of_find_none hfind hfk')
      have hsum := sumW_set entryWeight t.storage i (.entry k v) hi .empty
      rw [hgetD, hslot] at hsum
      refine ⟨⟨Struct_placeAt i k v hs, ?_, ?_, ?_, ?_⟩, hf1, hf2, ?_, rfl⟩
      · intro s hs'
        rw [storage_placeAt] at hs'
        rcases List.mem_or_eq_of_mem_set hs' with h' | rfl
        · exact hnd s h'
        · simp
      · rw [hcnt', hcnt, storage_placeAt]
        have h1 : entryWeight (Slot.entry k v) = 1 := rfl
        have h2 : entryWeight (Slot.empty : Slot V) = 0 := rfl
        omega
      · intro a
        rw [keyCount, storage_placeAt]
        have hsum2 := sumW_set (keyWeight a) t.storage i (.entry k v) hi .empty
        rw [hgetD, hslot] at hsum2
        have hz : keyWeight a (Slot.empty : Slot V) = 0 := rfl
        by_cases ha : a = k
        · have hw1 : keyWeight a (Slot.entry k v) = 1 := by
            rw [keyWeight, if_pos ha.symm]
          rw [keyCount] at hkz
          have hkz2 : sumW (keyWeight a) t.storage = 0 := by
            rw [ha]
            exact hkz
          omega
        · have hw0 : keyWeight a (Slot.entry k v) = 0 := by
            rw [keyWeight, if_neg (fun h => ha h.symm)]
          have hu := huniq a
          rw [keyCount] at hu
          omega
      · intro j hj k' v' hj'
        rw [storage_placeAt, List.length_set] at hj
        rw [storage_placeAt, Chaining.getD_set_of_lt _ _ hi] at hj'
        by_cases hij : j = i
        · rw [if_pos hij] at hj'
          cases hj'
          exact hf1
        · rw [if_neg hij] at hj'
          have hk' : k' ≠ k := by
            intro hk'
            subst hk'
            have := hnok _ (by
              have : t.storage.getD j .empty ∈ t.storage := by
                have : slotAt t j ∈ t.storage := slotAt_mem hj
                exact this
              rw [hj'] at this
              exact this)
            simp [isEntryKey] at this
          rw [hf2 k' hk']
          exact hfind j hj k' v' hj'
      · rw [hf0]
        simp [hcnt']

theorem getD_replicate_empty (c j : Nat) :
    (List.replicate c (Slot.empty : Slot V)).getD j .empty = .empty := by
  rw [List.getD_eq_getElem?_getD, List.getElem?_replicate]
  split <;> rfl

theorem sumW_replicate_zero {α : Type} (w : α → Nat) (x : α) (hx : w x = 0)
    (c : Nat) : sumW w (List.replicate c x) = 0 := by
  induction c with
  | zero => rfl
  | succ c ih =>
      rw [List.replicate_succ]
      show w x + _ = 0
      omega

theorem find_element_init_none (probe : String → Nat → Nat → Nat) (c : Nat)
    (m : ℚ) (k : String) :
    find_element probe (init c m : OA V) k = none := by
  apply find_element_none_of_noKey
  intro s hs
  rw [show (init c m : OA V).storage = List.replicate c .empty from rfl] at hs
  rw [List.eq_of_mem_replicate hs]
  rfl

theorem CleanInv_init (probe : String → Nat → Nat → Nat) (c : Nat) (m : ℚ)
    (hc : 1 ≤ c) : CleanInv probe (init c m : OA V) := by
  refine ⟨Struct_init c m hc, ?_, ?_, ?_, ?_⟩
  · intro s hs
    rw [show (init c m : OA V).storage = List.replicate c .empty from rfl] at hs
    rw [List.eq_of_mem_replicate hs]
    intro h
    cases h
  · show (0 : Nat) = _
    rw [show (init c m : OA V).storage = List.replicate c .empty from rfl,
      sumW_replicate_zero entryWeight .empty rfl c]
  · intro k
    rw [keyCount, show (init c m : OA V).storage = List.replicate c .empty from rfl,
      sumW_replicate_zero (keyWeight k) .empty rfl c]
    omega
  · intro j hj k v hj'
    rw [show (init c m : OA V).storage = List.replicate c .empty from rfl,
      getD_replicate_empty] at hj'
    cases hj'

theorem lookupB_eq_none_of_weight_zero {es : List (String × V)} {k : String}
    (h : sumW (pairKeyWeight k) es = 0) : Chaining.lookupB k es = none := by
  induction es with
  | nil => rfl
  | cons p rest ih =>
      have hcons : pairKeyWeight k p + sumW (pairKeyWeight k) rest = 0 := h
      have hp : p.1 ≠ k := by
        intro hp
        rw [pairKeyWeight, if_pos hp] at hcons
        omega
      rw [Chaining.lookupB, if_neg hp]
      exact ih (by omega)

theorem find_eq_lookup_live {probe : String → Nat → Nat → Nat} {t : OA V}
    (hcl : CleanInv probe t) (k : String) :
    find_element probe t k = Chaining.lookupB k (liveEntries t) := by
  obtain ⟨hs, hnd, hcnt, huniq, hfind⟩ := hcl
  cases hf : find_element probe t k with
  | some v =>
      have hmem : Slot.entry k v ∈ t.storage := find_element_some_mem hf
      have hmem' : (k, v) ∈ liveEntries t := by
        rw [liveEntries]
        exact List.mem_filterMap.mpr ⟨_, hmem, rfl⟩
      symm
      apply lookupB_eq_some_of_mem_uniq hmem'
      intro a
      rw [sumW_pairKey_liveEntries]
      exact huniq a
  | none =>
      symm
      apply lookupB_eq_none_of_weight_zero
      rw [sumW_pairKey_liveEntries]
      exact keyCount_zero_of_find_none hfind hf

theorem clean_fold {probe : String → Nat → Nat → Nat} (hp : GoodProbe probe)
    (S : OA V → String → V → Option (OA V))
    (hS : ∀ t k v t', CleanInv probe t → S t k v = some t' →
      CleanAddSpec probe t k v t') :
    ∀ (es : List (String × V)) (t0 tr : OA V), CleanInv probe t0 →
      (∀ a, sumW (pairKeyWeight a) es ≤ 1) →
      (∀ p ∈ es, find_element probe t0 p.1 = none) →
      es.foldlM (fun acc p => S acc p.1 p.2) t0 = some tr →
      CleanInv probe tr ∧
      (∀ k, find_element probe tr k =
        match Chaining.lookupB k es with
        | some v => some v
        | none => find_element probe t0 k) ∧
      tr.element_count = t0.element_count + es.length ∧
      tr.max_load_factor = t0.max_load_factor := by
  intro es
  induction es with
  | nil =>
      intro t0 tr hcl _ _ hfold
      simp only [List.foldlM_nil] at hfold
      cases hfold
      exact ⟨hcl, fun k => by simp [Chaining.lookupB], by simp, rfl⟩
  | cons p es ih =>
      intro t0 tr hcl huniq hfresh hfold
      rw [List.foldlM_cons] at hfold
      obtain ⟨acc, hacc, hrest⟩ := Option.bind_eq_some.mp hfold
      obtain ⟨hcla, hfa, hothera, hcnta, hmaxa⟩ := hS t0 p.1 p.2 acc hcl hacc
      have hhead := keysUniq_cons_head huniq
      have htail := keysUniq_cons_tail huniq
      have hfresh0 : find_element probe t0 p.1 = none := hfresh p (by simp)
      have hfresh' : ∀ q ∈ es, find_element probe acc q.1 = none := by
        intro q hq
        rw [hothera q.1 (hhead q hq)]
        exact hfresh q (by simp [hq])
      obtain ⟨hclr, hretr, hcntr, hmaxr⟩ := ih acc tr hcla htail hfresh' hrest
      refine ⟨hclr, ?_, ?_, hmaxr.trans hmaxa⟩
      · intro k
        rw [hretr k]
        by_cases hk : k = p.1
        · have hes : Chaining.lookupB k es = none := by
            apply Chaining.lookupB_eq_none_of_not_hasKeyB
            apply Chaining.hasKeyB_eq_false_of_forall
            intro q hq
            rw [hk]
            exact hhead q hq
          have hfacc : find_element probe acc k = some p.2 := by
            rw [hk]
            exact hfa
          rw [hes, hfacc]
          simp only [Chaining.lookupB, if_pos hk.symm]
        · have hpk : ¬(p.1 = k) := fun h => hk h.symm
          simp only [Chaining.lookupB, if_neg hpk]
          cases hes : Chaining.lookupB k es with
          | some v => rfl
          | none => simp [hothera k hk]
      · rw [hcntr, hcnta, hfresh0, List.length_cons]
        simp
        omega

theorem expand_clean {probe : String → Nat → Nat → Nat} (hp : GoodProbe probe)
    {f : Nat} {t tE : OA V}
    (hIH : ∀ (t1 : OA V) (k : String) (v : V) (t' : OA V), CleanInv probe t1 →
      insertEntry probe f t1 k v = some t' → CleanAddSpec probe t1 k v t')
    (hcl : CleanInv probe t)
    (hexp : (liveEntries t).foldlM
        (fun acc q => insertEntry probe f acc q.1 q.2)
        (init (2 * t.capacity) t.max_load_factor) = some tE) :
    CleanInv probe tE ∧
    (∀ k, find_element probe tE k = find_element probe t k) ∧
    tE.element_count = t.element_count ∧
    tE.max_load_factor = t.max_load_factor := by
  have hc1 : 1 ≤ t.capacity := hcl.1.2
  have hcl0 : CleanInv probe (init (2 * t.capacity) t.max_load_factor : OA V) :=
    CleanInv_init probe _ _ (by omega)
  have huniq : ∀ a, sumW (pairKeyWeight a) (liveEntries t) ≤ 1 := by
    intro a
    rw [sumW_pairKey_liveEntries]
    exact hcl.2.2.2.1 a
  have hfresh : ∀ p ∈ liveEntries t,
      find_element probe (init (2 * t.capacity) t.max_load_factor : OA V) p.1 = none :=
    fun p _ => find_element_init_none probe _ _ p.1
  obtain ⟨hclE, hretE, hcntE, hmaxE⟩ :=
    clean_fold hp (insertEntry probe f) hIH (liveEntries t) _ tE hcl0 huniq hfresh hexp
  refine ⟨hclE, ?_, ?_, hmaxE⟩
  · intro k
    rw [hretE k, find_eq_lookup_live hcl k]
    cases hlk : Chaining.lookupB k (liveEntries t) with
    | some v => rfl
    | none => exact find_element_init_none probe _ _ k
  · rw [hcntE]
    show 0 + _ = _
    rw [Nat.zero_add, length_liveEntries_eq_sumW]
    exact hcl.2.2.1.symm

theorem insertEntry_cleanSpec {probe : String → Nat → Nat → Nat}
    (hp : GoodProbe probe) :
    ∀ (f : Nat) (t : OA V) (k : String) (v : V) (t' : OA V),
      CleanInv probe t → insertEntry probe f t k v = some t' →
      CleanAddSpec probe t k v t' := by
  intro f
  induction f with
  | zero =>
      intro t k v t' hcl hins
      simp only [insertEntry] at hins
      obtain ⟨i, hidx, rfl⟩ := Option.map_eq_some'.mp hins
      exact cleanPlace v hp hcl hidx
  | succ f ih =>
      intro t k v t' hcl hins
      rw [insertEntry] at hins
      cases hidx : findInsertIndex probe t k with
      | some i =>
          rw [hidx] at hins
          cases hins
          exact cleanPlace v hp hcl hidx
      | none =>
          rw [hidx] at hins
          obtain ⟨tE, hexp, hins'⟩ := Option.bind_eq_some.mp hins
          obtain ⟨hclE, hretE, hcntE, hmaxE⟩ := expand_clean hp ih hcl hexp
          obtain ⟨hcl', hf', hother', hcnt', hmax'⟩ := ih tE k v t' hclE hins'
          refine ⟨hcl', hf', ?_, ?_, hmax'.trans hmaxE⟩
          · intro k' hk'
            rw [hother' k' hk', hretE k']
          · rw [hcnt', hretE k, hcntE]

theorem add_element_cleanSpec {probe : String → Nat → Nat → Nat}
    (hp : GoodProbe probe) {f : Nat} {t : OA V} {k : String} {v : V}
    {t' : OA V} (hcl : CleanInv probe t)
    (hadd : add_element probe f t k v = some t') :
    CleanAddSpec probe t k v t' := by
  rw [add_element] at hadd
  by_cases hload : compute_current_load t > t.max_load_factor
  · rw [if_pos hload] at hadd
    obtain ⟨tE, hexp, hins⟩ := Option.bind_eq_some.mp hadd
    rw [expand] at hexp
    obtain ⟨hclE, hretE, hcntE, hmaxE⟩ :=
      expand_clean hp (fun t1 a b t2 => insertEntry_cleanSpec hp f t1 a b t2) hcl hexp
    obtain ⟨hcl', hf', hother', hcnt', hmax'⟩ :=
      insertEntry_cleanSpec hp f tE k v t' hclE hins
    refine ⟨hcl', hf', ?_, ?_, hmax'.trans hmaxE⟩
    · intro k' hk'
      rw [hother' k' hk', hretE k']
    · rw [hcnt', hretE k, hcntE]
  · rw [if_neg hload] at hadd
    exact insertEntry_cleanSpec hp f t k v t' hcl hadd

theorem removeAux_cons (t : OA V) (k : String) (i : Nat) (rest : List Nat) :
    removeAux t k (i :: rest) =
      match slotAt t i with
      | .empty => (t, false)
      | .deleted => removeAux t k rest
      | .entry k' _ =>
          if k' = k then
            ({ t with storage := t.storage.set i .deleted,
                      element_count := t.element_count - 1 }, true)
          else removeAux t k rest := rfl

theorem removeAux_cons_of_empty {t : OA V} {k : String} {i : Nat}
    {rest : List Nat} (hslot : slotAt t i = .empty) :
    removeAux t k (i :: rest) = (t, false) := by
  rw [removeAux_cons, hslot]

theorem removeAux_cons_of_deleted {t : OA V} {k : String} {i : Nat}
    {rest : List Nat} (hslot : slotAt t i = .deleted) :
    removeAux t k (i :: rest) = removeAux t k rest := by
  rw [removeAux_cons, hslot]

theorem removeAux_cons_of_entry {t : OA V} {k k' : String} {w : V} {i : Nat}
    {rest : List Nat} (hslot : slotAt t i = .entry k' w) :
    removeAux t k (i :: rest) =
      if k' = k then
        ({ t with storage := t.storage.set i .deleted,
                  element_count := t.element_count - 1 }, true)
      else removeAux t k rest := by
  rw [removeAux_cons, hslot]

theorem removeAux_spec (t : OA V) (k : String) :
    ∀ idxs, (∀ i ∈ idxs, i < t.storage.length) →
      ((removeAux t k idxs).2 = false ∧ (removeAux t k idxs).1 = t) ∨
      ((removeAux t k idxs).2 = true ∧ ∃ i, i < t.storage.length ∧
        ∃ w, slotAt t i = .entry k w ∧
        (removeAux t k idxs).1 = OA.mk t.capacity t.max_load_factor
          (t.storage.set i .deleted) (t.element_count - 1)) := by
  intro idxs
  induction idxs with
  | nil => intro _; exact Or.inl ⟨rfl, rfl⟩
  | cons i rest ih =>
      intro hbound
      have hi : i < t.storage.length := hbound i (by simp)
      cases hslot : slotAt t i with
      | empty =>
          rw [removeAux_cons_of_empty hslot]
          exact Or.inl ⟨rfl, rfl⟩
      | deleted =>
          rw [removeAux_cons_of_deleted hslot]
          exact ih (fun j hj => hbound j (by simp [hj]))
      | entry k' w =>
          rw [removeAux_cons_of_entry hslot]
          by_cases hk : k' = k
          · rw [if_pos hk]
            right
            refine ⟨rfl, i, hi, w, ?_, rfl⟩
            rw [hslot, hk]
          · rw [if_neg hk]
            exact ih (fun j hj => hbound j (by simp [hj]))

theorem remove_element_spec {probe : String → Nat → Nat → Nat} {t : OA V}
    (k : String) (hp : GoodProbe probe) (hs : Struct t) :
    ((remove_element probe t k).2 = false ∧ (remove_element probe t k).1 = t) ∨
    ((remove_element probe t k).2 = true ∧ ∃ i, i < t.storage.length ∧
      ∃ w, slotAt t i = .entry k w ∧
      (remove_element probe t k).1 = OA.mk t.capacity t.max_load_factor
        (t.storage.set i .deleted) (t.element_count - 1)) := by
  apply removeAux_spec
  intro i hi
  rcases List.mem_map.mp hi with ⟨a, _, rfl⟩
  rw [hs.1]
  exact hp k t.capacity a hs.2

theorem removeAux_false_of_noKey {t : OA V} {k : String}
    (hnk : ∀ s ∈ t.storage, isEntryKey k s = false) :
    ∀ idxs, (removeAux t k idxs).2 = false := by
  intro idxs
  induction idxs with
  | nil => rfl
  | cons i rest ih =>
      by_cases hi : i < t.storage.length
      · cases hslot : slotAt t i with
        | empty => rw [removeAux_cons_of_empty hslot]
        | deleted =>
            rw [removeAux_cons_of_deleted hslot]
            exact ih
        | entry k' w =>
            have := hnk _ (hslot ▸ slotAt_mem hi)
            have hk' : ¬(k' = k) := by simpa [isEntryKey] using this
            rw [removeAux_cons_of_entry hslot, if_neg hk']
            exact ih
      · rw [removeAux_cons_of_empty (slotAt_eq_empty_of_ge (by omega))]

theorem remove_element_false_of_noKey (probe : String → Nat → Nat → Nat)
    {t : OA V} {k : String}
    (hnk : ∀ s ∈ t.storage, isEntryKey k s = false) :
    (remove_element probe t k).2 = false :=
  removeAux_false_of_noKey hnk _

theorem noKey_placeAt {t : OA V} {A k : String} {i : Nat} (v : V)
    (hAk : A ≠ k) (hA : ∀ s ∈ t.storage, isEntryKey A s = false) :
    ∀ s ∈ (placeAt t i k v).storage, isEntryKey A s = false := by
  intro s hs
  rw [storage_placeAt] at hs
  rcases List.mem_or_eq_of_mem_set hs with h' | rfl
  · exact hA s h'
  · have : ¬(k = A) := fun h => hAk h.symm
    simp [isEntryKey, this]

theorem noKey_init (A : String) (c : Nat) (m : ℚ) :
    ∀ s ∈ (init c m : OA V).storage, isEntryKey A s = false := by
  intro s hs
  rw [show (init c m : OA V).storage = List.replicate c .empty from rfl] at hs
  rw [List.eq_of_mem_replicate hs]
  rfl

theorem liveEntries_key_ne_of_noKey {t : OA V} {A : String}
    (hA : ∀ s ∈ t.storage, isEntryKey A s = false) :
    ∀ p ∈ liveEntries t, p.1 ≠ A := by
  intro p hp
  rw [liveEntries] at hp
  rcases List.mem_filterMap.mp hp with ⟨s, hs, hent⟩
  cases s with
  | empty => cases hent
  | deleted => cases hent
  | entry k' w =>
      have := hA _ hs
      cases hent
      simpa [isEntryKey] using this

theorem insertEntry_noKey {probe : String → Nat → Nat → Nat} {A : String} :
    ∀ (f : Nat) (t : OA V) (k : String) (v : V) (t' : OA V), A ≠ k →
      (∀ s ∈ t.storage, isEntryKey A s = false) →
      insertEntry probe f t k v = some t' →
      ∀ s ∈ t'.storage, isEntryKey A s = false := by
  intro f
  induction f with
  | zero =>
      intro t k v t' hAk hA hins
      simp only [insertEntry] at hins
      obtain ⟨i, _, rfl⟩ := Option.map_eq_some'.mp hins
      exact noKey_placeAt v hAk hA
  | succ f ih =>
      intro t k v t' hAk hA hins
      rw [insertEntry] at hins
      cases hidx : findInsertIndex probe t k with
      | some i =>
          rw [hidx] at hins
          cases hins
          exact noKey_placeAt v hAk hA
      | none =>
          rw [hidx] at hins
          obtain ⟨tE, hexp, hins'⟩ := Option.bind_eq_some.mp hins
          have hlive := liveEntries_key_ne_of_noKey hA
          have hE : ∀ s ∈ tE.storage, isEntryKey A s = false := by
            clear hins' hins hidx
            revert hexp
            generalize hES : liveEntries t = es
            rw [hES] at hlive
            clear hES
            have h0 := noKey_init (V := V) A (2 * t.capacity) t.max_load_factor
            revert h0
            generalize (init (2 * t.capacity) t.max_load_factor : OA V) = t0
            intro h0
            induction es generalizing t0 with
            | nil =>
                intro hexp
                simp only [List.foldlM_nil] at hexp
                cases hexp
                exact h0
            | cons p es ihs =>
                intro hexp
                rw [List.foldlM_cons] at hexp
                obtain ⟨acc, hacc, hrest⟩ := Option.bind_eq_some.mp hexp
                have hAp : A ≠ p.1 := fun h => hlive p (by simp) h.symm
                have hacc' := ih t0 p.1 p.2 acc hAp h0 hacc
                exact ihs (fun q hq => hlive q (by simp [hq])) acc hacc' hrest
          exact ih tE k v t' hAk hE hins'

theorem Struct_insertEntry {probe : String → Nat → Nat → Nat}
    (hp : GoodProbe probe) :
    ∀ (f : Nat) (t : OA V) (k : String) (v : V) (t' : OA V), Struct t →
      insertEntry probe f t k v = some t' →
      Struct t' ∧ find_element probe t' k = some v := by
  intro f
  induction f with
  | zero =>
      intro t k v t' hs hins
      simp only [insertEntry] at hins
      obtain ⟨i, hidx, rfl⟩ := Option.map_eq_some'.mp hins
      have hi := findInsertIndex_some_lt hp hs hidx
      exact ⟨Struct_placeAt i k v hs, find_element_placeAt_self v hi hidx⟩
  | succ f ih =>
      intro t k v t' hs hins
      rw [insertEntry] at hins
      cases hidx : findInsertIndex probe t k with
      | some i =>
          rw [hidx] at hins
          cases hins
          have hi := findInsertIndex_some_lt hp hs hidx
          exact ⟨Struct_placeAt i k v hs, find_element_placeAt_self v hi hidx⟩
      | none =>
          rw [hidx] at hins
          obtain ⟨tE, hexp, hins'⟩ := Option.bind_eq_some.mp hins
          have hE : Struct tE := by
            clear hins' hins hidx
            revert hexp
            have h0 : Struct (init (2 * t.capacity) t.max_load_factor : OA V) :=
              Struct_init _ _ (by have := hs.2; omega)
            revert h0
            generalize (init (2 * t.capacity) t.max_load_factor : OA V) = t0
            generalize liveEntries t = es
            intro h0
            induction es generalizing t0 with
            | nil =>
                intro hexp
                simp only [List.foldlM_nil] at hexp
                cases hexp
                exact h0
            | cons p es ihs =>
                intro hexp
                rw [List.foldlM_cons] at hexp
                obtain ⟨acc, hacc, hrest⟩ := Option.bind_eq_some.mp hexp
                exact ihs acc ((ih t0 p.1 p.2 acc h0 hacc).1) hrest
          exact ih tE k v t' hE hins'

theorem add_element_noKey {probe : String → Nat → Nat → Nat} {A : String}
    {f : Nat} {t : OA V} {k : String} {v : V} {t' : OA V} (hAk : A ≠ k)
    (hA : ∀ s ∈ t.storage, isEntryKey A s = false)
    (hadd : add_element probe f t k v = some t') :
    ∀ s ∈ t'.storage, isEntryKey A s = false := by
  rw [add_element] at hadd
  by_cases hload : compute_current_load t > t.max_load_factor
  · rw [if_pos hload] at hadd
    obtain ⟨tE, hexp, hins⟩ := Option.bind_eq_some.mp hadd
    rw [expand] at hexp
    have hlive := liveEntries_key_ne_of_noKey hA
    have hE : ∀ s ∈ tE.storage, isEntryKey A s = false := by
      revert hexp
      generalize hES : liveEntries t = es
      rw [hES] at hlive
      clear hES
      have h0 := noKey_init (V := V) A (2 * t.capacity) t.max_load_factor
      revert h0
      generalize (init (2 * t.capacity) t.max_load_factor : OA V) = t0
      intro h0
      induction es generalizing t0 with
      | nil =>
          intro hexp
          simp only [List.foldlM_nil] at hexp
          cases hexp
          exact h0
      | cons p es ihs =>
          intro hexp
          rw [List.foldlM_cons] at hexp
          obtain ⟨acc, hacc, hrest⟩ := Option.bind_eq_some.mp hexp
          have hAp : A ≠ p.1 := fun h => hlive p (by simp) h.symm
          have hacc' := insertEntry_noKey f t0 p.1 p.2 acc hAp h0 hacc
          exact ihs (fun q hq => hlive q (by simp [hq])) acc hacc' hrest
    exact insertEntry_noKey f tE k v t' hAk hE hins
  · rw [if_neg hload] at hadd
    exact insertEntry_noKey f t k v t' hAk hA hadd

theorem add_element_find_self {probe : String → Nat → Nat → Nat}
    (hp : GoodProbe probe) {f : Nat} {t : OA V} {k : String} {v : V}
    {t' : OA V} (hs : Struct t)
    (hadd : add_element probe f t k v = some t') :
    Struct t' ∧ find_element probe t' k = some v := by
  rw [add_element] at hadd
  by_cases hload : compute_current_load t > t.max_load_factor
  · rw [if_pos hload] at hadd
    obtain ⟨tE, hexp, hins⟩ := Option.bind_eq_some.mp hadd
    rw [expand] at hexp
    have hE : Struct tE := by
      revert hexp
      have h0 : Struct (init (2 * t.capacity) t.max_load_factor : OA V) :=
        Struct_init _ _ (by have := hs.2; omega)
      revert h0
      generalize (init (2 * t.capacity) t.max_load_factor : OA V) = t0
      generalize liveEntries t = es
      intro h0
      induction es generalizing t0 with
      | nil =>
          intro hexp
          simp only [List.foldlM_nil] at hexp
          cases hexp
          exact h0
      | cons p es ihs =>
          intro hexp
          rw [List.foldlM_cons] at hexp
          obtain ⟨acc, hacc, hrest⟩ := Option.bind_eq_some.mp hexp
          exact ihs acc ((Struct_insertEntry hp f t0 p.1 p.2 acc h0 hacc).1) hrest
    exact Struct_insertEntry hp f tE k v t' hE hins
  · rw [if_neg hload] at hadd
    exact Struct_insertEntry hp f t k v t' hs hadd

theorem sumW_entry_eq_length_of_all {l : List (Slot V)}
    (h : ∀ s ∈ l, isEntry s = true) : sumW entryWeight l = l.length := by
  induction l with
  | nil => rfl
  | cons s rest ih =>
      have hs := h s (by simp)
      have hw : entryWeight s = 1 := by
        cases s with
        | empty => simp [isEntry] at hs
        | deleted => simp [isEntry] at hs
        | entry k v => rfl
      show entryWeight s + _ = _
      rw [hw, ih (fun q hq => h q (by simp [hq])), List.length_cons]
      omega

theorem exists_empty_of_count_lt {t : OA V} (hs : Struct t)
    (hnd : ∀ s ∈ t.storage, s ≠ .deleted)
    (hcnt : t.element_count = sumW entryWeight t.storage)
    (hlt : t.element_count < t.capacity) :
    ∃ j, j < t.storage.length ∧ slotAt t j = .empty := by
  by_contra hne
  push_neg at hne
  have hall : ∀ s ∈ t.storage, isEntry s = true := by
    intro s hmem
    obtain ⟨j, hj, hget⟩ := List.mem_iff_getElem.mp hmem
    have hslot : slotAt t j = s := by
      rw [slotAt, List.getD_eq_getElem?_getD, List.getElem?_eq_getElem hj, hget]
      rfl
    cases s with
    | empty => exact absurd hslot (hne j hj)
    | deleted => exact absurd rfl (hnd _ hmem)
    | entry k v => rfl
  have heq := sumW_entry_eq_length_of_all hall
  rw [hs.1] at heq
  omega

theorem linear_covers (h0 target c : Nat) (hc : 1 ≤ c) (ht : target < c) :
    ∃ a, a < c ∧ (h0 + a) % c = target := by
  have hc0 : 0 < c := hc
  have hr : h0 % c < c := Nat.mod_lt _ hc0
  have hdm := Nat.div_add_mod h0 c
  by_cases hle : h0 % c ≤ target
  · refine ⟨target - h0 % c, by omega, ?_⟩
    have h1 : h0 + (target - h0 % c) = c * (h0 / c) + target := by omega
    rw [h1, Nat.mul_add_mod]
    exact Nat.mod_eq_of_lt ht
  · refine ⟨c + target - h0 % c, by omega, ?_⟩
    have h1 : h0 + (c + target - h0 % c) = c * (h0 / c + 1) + target := by
      have hcm : c * (h0 / c + 1) = c * (h0 / c) + c := by ring
      omega
    rw [h1, Nat.mul_add_mod]
    exact Nat.mod_eq_of_lt ht

theorem findIdxA_some_of_exists {t : OA V} {k : String} :
    ∀ {idxs}, (∃ i ∈ idxs, slotAccepts (slotAt t i) k = true) →
      ∃ j, findIdxA t k idxs = some j := by
  intro idxs
  induction idxs with
  | nil => intro ⟨i, hmem, _⟩; simp at hmem
  | cons i' rest ih =>
      intro ⟨i, hmem, hacc⟩
      by_cases hacc' : slotAccepts (slotAt t i') k
      · exact ⟨i', by rw [findIdxA, if_pos hacc']⟩
      · rcases List.mem_cons.mp hmem with rfl | hmem'
        · exact absurd hacc hacc'
        · obtain ⟨j, hj⟩ := ih ⟨i, hmem', hacc⟩
          exact ⟨j, by rw [findIdxA, if_neg hacc']; exact hj⟩

theorem linear_findInsertIndex_some {hf : String → Nat → Nat} {t : OA V}
    (k : String) (hs : Struct t) (hnd : ∀ s ∈ t.storage, s ≠ .deleted)
    (hcnt : t.element_count = sumW entryWeight t.storage)
    (hlt : t.element_count < t.capacity) :
    ∃ i, findInsertIndex (linearProbe hf) t k = some i := by
  obtain ⟨j, hj, hempty⟩ := exists_empty_of_count_lt hs hnd hcnt hlt
  have hjc : j < t.capacity := by rw [← hs.1]; exact hj
  obtain ⟨a, hac, hcov⟩ := linear_covers (hf k t.capacity) j t.capacity hs.2 hjc
  apply findIdxA_some_of_exists
  refine ⟨j, ?_, by rw [hempty]; rfl⟩
  apply List.mem_map.mpr
  exact ⟨a, List.mem_range.mpr hac, by rw [linearProbe, hcov]⟩

theorem insertEntry_of_findInsertIndex_some {probe : String → Nat → Nat → Nat}
    {t : OA V} {k : String} {i : Nat}
    (h : findInsertIndex probe t k = some i) (f : Nat) (v : V) :
    insertEntry probe f t k v = some (placeAt t i k v) := by
  cases f <;> simp [insertEntry, h]

theorem linear_fold_total {hf : String → Nat → Nat} (f : Nat) :
    ∀ (es : List (String × V)) (t0 : OA V), CleanInv (linearProbe hf) t0 →
      t0.element_count + es.length ≤ t0.capacity →
      ∃ tr, es.foldlM (fun acc p => insertEntry (linearProbe hf) f acc p.1 p.2) t0
          = some tr ∧
        CleanInv (linearProbe hf) tr ∧ tr.capacity = t0.capacity ∧
        tr.element_count ≤ t0.element_count + es.length ∧
        tr.max_load_factor = t0.max_load_factor := by
  intro es
  induction es with
  | nil =>
      intro t0 hcl _
      exact ⟨t0, by simp, hcl, rfl, by simp, rfl⟩
  | cons p rest ih =>
      intro t0 hcl hbound
      rw [List.length_cons] at hbound
      have hlt : t0.element_count < t0.capacity := by omega
      obtain ⟨i, hidx⟩ :=
        linear_findInsertIndex_some p.1 hcl.1 hcl.2.1 hcl.2.2.1 hlt
      have hstep := insertEntry_of_findInsertIndex_some hidx f p.2
      obtain ⟨hcl1, _, _, hcnt1, hmax1⟩ :=
        cleanPlace p.2 (goodProbe_linear hf) hcl hidx
      have hcap1 : (placeAt t0 i p.1 p.2).capacity = t0.capacity := rfl
      have hcnt1' : (placeAt t0 i p.1 p.2).element_count ≤ t0.element_count + 1 := by
        rw [hcnt1]
        split <;> omega
      obtain ⟨tr, hfold, hclr, hcapr, hcntr, hmaxr⟩ :=
        ih (placeAt t0 i p.1 p.2) hcl1 (by rw [hcap1]; omega)
      refine ⟨tr, ?_, hclr, hcapr.trans hcap1, ?_, hmaxr.trans hmax1⟩
      · rw [List.foldlM_cons, hstep]
        exact hfold
      · rw [List.length_cons]
        omega

end OpenAddr

/-! Claim theorems. -/

/-- Claim C8 (code evidence): neither constructor rejects an invalid
configuration.  Constructing the chained table with capacity 0, the
open-addressing table with capacity 0, and the open-addressing table with
capacity 2 (degenerate for the double-hash secondary function whose divisor
is capacity - 2) all succeed and return ordinary states; no error path
exists in either __init__. -/
theorem C8_no_constructor_validation :
    (Chaining.init 0 (3/4) : Chaining.Chain Int) = ⟨0, 3/4, [], 0⟩ ∧
    (OpenAddr.init 0 (3/4) : OpenAddr.OA Int) = ⟨0, 3/4, [], 0⟩ ∧
    (OpenAddr.init 2 (3/4) : OpenAddr.OA Int) = ⟨2, 3/4, [.empty, .empty], 0⟩ := by
  refine ⟨rfl, rfl, rfl⟩

/-- Claim C9 (counterexample): generate_djb2_hash_code does not equal the
unbounded-integer DJB2 fold reduced only at the end; the per-step 32-bit mask
changes the result already on the string "aaaaaa" with capacity 1000. -/
theorem C9_counterexample :
    generate_djb2_hash_code "aaaaaa" 1000 ≠ djb2_unbounded_spec "aaaaaa" 1000 := by
  decide

/-- Claim C9 (amended): for every string key and every capacity,
generate_djb2_hash_code equals the fold of h to (h * 33 + code) reduced mod
2^32 at every step, starting from 5381, reduced mod capacity at the end. -/
theorem C9_djb2_amended (s : String) (cap : Nat) :
    generate_djb2_hash_code s cap = djb2_masked_spec s cap := by
  rw [generate_djb2_hash_code, djb2_masked_spec]
  have hstep : ∀ (h : Nat) (c : Char),
      (((h <<< 5) + h) + c.toNat) &&& 0xFFFFFFFF
        = (h * 33 + c.toNat) % 4294967296 := by
    intro h c
    have h1 : (h <<< 5) = h * 32 := by
      rw [Nat.shiftLeft_eq]
    have h2 : ((h <<< 5) + h) + c.toNat = h * 33 + c.toNat := by
      rw [h1]; ring
    rw [h2]
    have h3 : (4294967296 : Nat) = 2 ^ 32 := by norm_num
    rw [h3, ← Nat.and_pow_two_sub_one_eq_mod]
  have hfold : ∀ (l : List Char) (a : Nat),
      l.foldl (fun h c => (((h <<< 5) + h) + c.toNat) &&& 0xFFFFFFFF) a
        = l.foldl (fun h c => (h * 33 + c.toNat) % 4294967296) a := by
    intro l
    induction l with
    | nil => intro a; rfl
    | cons c rest ih =>
        intro a
        show List.foldl _ ((((a <<< 5) + a) + c.toNat) &&& 0xFFFFFFFF) rest = _
        rw [hstep a c]
        exact ih _
  rw [hfold]

/-- Claim C9 (amended, witness): the amended equation at the concrete input
of the counterexample. -/
theorem C9_djb2_amended_witness :
    generate_djb2_hash_code "aaaaaa" 1000 = djb2_masked_spec "aaaaaa" 1000 :=
  C9_djb2_amended "aaaaaa" 1000

/-- Claim C1 (counterexample): after add_entry completes on the fresh chained
table of capacity 1 with the default max load factor 3/4 and the default
polynomial hash, the load factor is 1, strictly above max_load_factor; the
claimed bound fails because the resize check happens before the insert. -/
theorem C1_counterexample :
    Chaining.add_entry compute_polynomial_based_hash 1
      (Chaining.init 1 (3/4)) "a" (0 : Int) = some ⟨1, 3/4, [[("a", 0)]], 1⟩ ∧
    (⟨1, 3/4, [[("a", 0)]], 1⟩ : Chaining.Chain Int).max_load_factor
      < Chaining.current_load_factor (⟨1, 3/4, [[("a", 0)]], 1⟩ : Chaining.Chain Int) := by
  constructor
  · with_unfolding_all decide
  · show (3/4 : ℚ) < (1 : ℚ) / (1 : ℚ)
    norm_num

/-- Claim C1 (amended): for every state of the chained table reachable from a
constructor call with positive capacity and max load factor at least 1/2,
after any completed add_entry the load factor exceeds max_load_factor by at
most one element's worth: current_load_factor is at most
max_load_factor + 1 / capacity. -/
theorem C1_load_factor_amended {V : Type} (hf : String → Nat → Nat)
    (hh : GoodHash hf) (t t' : Chaining.Chain V) (f : Nat) (k : String) (v : V)
    (hr : Chaining.Reachable hf t)
    (hadd : Chaining.add_entry hf f t k v = some t') :
    Chaining.current_load_factor t' ≤ t'.max_load_factor + 1 / t'.capacity := by
  have hr' : Chaining.Reachable hf t' := Chaining.Reachable.add t t' f k v hr hadd
  obtain ⟨hwf, _, hcnt⟩ := Chaining.reachable_chainInv hf hh hr'
  have hcap := hwf.2.1
  have hc : (0 : ℚ) < (t'.capacity : ℚ) := by
    have h1 : (1 : ℚ) ≤ (t'.capacity : ℚ) := by exact_mod_cast hcap
    linarith
  rw [Chaining.current_load_factor, div_le_iff hc]
  have hexp : (t'.max_load_factor + 1 / t'.capacity) * t'.capacity
      = t'.max_load_factor * t'.capacity + 1 := by
    field_simp
  rw [hexp]
  exact hcnt

/-- Claim C1 (amended, witness): the amended bound applied at the concrete
input of the counterexample: the resulting load factor 1 is within
max_load_factor + 1 / capacity = 7/4. -/
theorem C1_load_factor_amended_witness :
    Chaining.current_load_factor (⟨1, 3/4, [[("a", (0 : Int))]], 1⟩ : Chaining.Chain Int)
      ≤ (⟨1, 3/4, [[("a", (0 : Int))]], 1⟩ : Chaining.Chain Int).max_load_factor
        + 1 / (⟨1, 3/4, [[("a", (0 : Int))]], 1⟩ : Chaining.Chain Int).capacity :=
  C1_load_factor_amended compute_polynomial_based_hash goodHash_poly
    (Chaining.init 1 (3/4)) _ 1 "a" 0
    (Chaining.Reachable.init 1 (3/4) (by norm_num) (by norm_num))
    (by with_unfolding_all decide)

/-- Claim C5 (counterexample): in the open-addressing table with linear
probing and the default polynomial hash, the reachable state
[empty, deleted, ("e", 2), empty] holds the key "e" twice in its history:
remove_element "e" succeeds, yet find_element "e" still returns a value and a
second remove_element "e" returns true again, because _insert_entry had
earlier re-inserted "e" into the tombstone at index 1 while the older entry
at index 2 survived. -/
theorem C5_counterexample :
    ∃ t1 t2 t3 t4 t5 : OpenAddr.OA Int,
      OpenAddr.add_element (OpenAddr.linearProbe compute_polynomial_based_hash) 2
        (OpenAddr.init 4 (3/4)) "a" 1 = some t1 ∧
      OpenAddr.add_element (OpenAddr.linearProbe compute_polynomial_based_hash) 2
        t1 "e" 2 = some t2 ∧
      OpenAddr.remove_element (OpenAddr.linearProbe compute_polynomial_based_hash)
        t2 "a" = (t3, true) ∧
      OpenAddr.add_element (OpenAddr.linearProbe compute_polynomial_based_hash) 2
        t3 "e" 3 = some t4 ∧
      OpenAddr.remove_element (OpenAddr.linearProbe compute_polynomial_based_hash)
        t4 "e" = (t5, true) ∧
      OpenAddr.find_element (OpenAddr.linearProbe compute_polynomial_based_hash)
        t5 "e" = some 2 ∧
      (OpenAddr.remove_element (OpenAddr.linearProbe compute_polynomial_based_hash)
        t5 "e").2 = true := by
  refine ⟨⟨4, 3/4, [.empty, .entry "a" 1, .empty, .empty], 1⟩,
    ⟨4, 3/4, [.empty, .entry "a" 1, .entry "e" 2, .empty], 2⟩,
    ⟨4, 3/4, [.empty, .deleted, .entry "e" 2, .empty], 1⟩,
    ⟨4, 3/4, [.empty, .entry "e" 3, .entry "e" 2, .empty], 2⟩,
    ⟨4, 3/4, [.empty, .deleted, .entry "e" 2, .empty], 1⟩,
    ?_, ?_, ?_, ?_, ?_, ?_, ?_⟩ <;> with_unfolding_all decide

/-- Claim C5 (amended): after a successful delete the key is absent and a
second delete fails, unconditionally for the chained table, and for the
open-addressing table provided the key occupies at most one slot (which the
insert-into-tombstone behaviour of _insert_entry does not guarantee for all
reachable states). -/
theorem C5_delete_then_find_amended {V : Type} :
    (∀ (hf : String → Nat → Nat) (t : Chaining.Chain V) (k : String),
      GoodHash hf → Chaining.WF hf t →
      (Chaining.remove_entry hf t k).2 = true →
        Chaining.retrieve_value hf (Chaining.remove_entry hf t k).1 k = none ∧
        (Chaining.remove_entry hf (Chaining.remove_entry hf t k).1 k).2 = false) ∧
    (∀ (probe : String → Nat → Nat → Nat) (t : OpenAddr.OA V) (k : String),
      OpenAddr.GoodProbe probe → OpenAddr.Struct t → OpenAddr.keyCount t k ≤ 1 →
      (OpenAddr.remove_element probe t k).2 = true →
        OpenAddr.find_element probe (OpenAddr.remove_element probe t k).1 k = none ∧
        (OpenAddr.remove_element probe
          (OpenAddr.remove_element probe t k).1 k).2 = false) := by
  constructor
  · intro hf t k hh hwf htrue
    have hret := Chaining.remove_entry_retrieve hf k hwf hh k
    rw [if_pos rfl] at hret
    refine ⟨hret, ?_⟩
    rw [Chaining.remove_entry_snd, hret]
    rfl
  · intro probe t k hp hs huniq htrue
    rcases OpenAddr.remove_element_spec k hp hs with ⟨hfalse, _⟩ | ⟨_, i, hi, w, hslot, heq⟩
    · rw [htrue] at hfalse
      cases hfalse
    · set t1 := (OpenAddr.remove_element probe t k).1 with ht1
      have hst1 : t1.storage = t.storage.set i .deleted := by rw [heq]
      have hsum := OpenAddr.sumW_set (OpenAddr.keyWeight k) t.storage i .deleted hi .empty
      have hgetD : t.storage.getD i .empty = OpenAddr.Slot.entry k w := hslot
      rw [hgetD] at hsum
      have hw1 : OpenAddr.keyWeight k (OpenAddr.Slot.entry k w) = 1 := by
        rw [OpenAddr.keyWeight, if_pos rfl]
      have hwd : OpenAddr.keyWeight k (OpenAddr.Slot.deleted : OpenAddr.Slot V) = 0 := rfl
      have hkz : OpenAddr.sumW (OpenAddr.keyWeight k) t1.storage = 0 := by
        rw [hst1]
        rw [OpenAddr.keyCount] at huniq
        omega
      have hnk : ∀ s ∈ t1.storage, OpenAddr.isEntryKey k s = false :=
        OpenAddr.noEntry_of_keyCount_zero hkz
      exact ⟨OpenAddr.find_element_none_of_noKey probe hnk,
        OpenAddr.remove_element_false_of_noKey probe hnk⟩

/-- Claim C5 (amended, witness): concrete instance for both tables: a
single-entry chained table and an open-addressing table holding "a" once;
after the successful delete the key is gone and a second delete fails. -/
theorem C5_delete_then_find_amended_witness :
    ((Chaining.remove_entry compute_polynomial_based_hash
        (Chaining.insertNoResize compute_polynomial_based_hash
          (Chaining.init 1 (3/4)) "a" (5 : Int)) "a").2 = true ∧
      Chaining.retrieve_value compute_polynomial_based_hash
        (Chaining.remove_entry compute_polynomial_based_hash
          (Chaining.insertNoResize compute_polynomial_based_hash
            (Chaining.init 1 (3/4)) "a" (5 : Int)) "a").1 "a" = none) ∧
    ((OpenAddr.remove_element (OpenAddr.linearProbe compute_polynomial_based_hash)
        (⟨4, 3/4, [.empty, .entry "a" 5, .empty, .empty], 1⟩ : OpenAddr.OA Int)
        "a").2 = true ∧
      OpenAddr.find_element (OpenAddr.linearProbe compute_polynomial_based_hash)
        (OpenAddr.remove_element (OpenAddr.linearProbe compute_polynomial_based_hash)
          (⟨4, 3/4, [.empty, .entry "a" 5, .empty, .empty], 1⟩ : OpenAddr.OA Int)
          "a").1 "a" = none) := by
  constructor
  · refine ⟨by decide, ?_⟩
    exact ((@C5_delete_then_find_amended Int).1 compute_polynomial_based_hash
      (Chaining.insertNoResize compute_polynomial_based_hash
        (Chaining.init 1 (3/4)) "a" 5) "a" goodHash_poly
      (Chaining.WF_insertNoResize compute_polynomial_based_hash "a" 5
        (Chaining.WF_init compute_polynomial_based_hash 1 (3/4) (by norm_num))
        goodHash_poly)
      (by decide)).1
  · refine ⟨by decide, ?_⟩
    exact ((@C5_delete_then_find_amended Int).2
      (OpenAddr.linearProbe compute_polynomial_based_hash)
      ⟨4, 3/4, [.empty, .entry "a" 5, .empty, .empty], 1⟩ "a"
      (OpenAddr.goodProbe_linear compute_polynomial_based_hash)
      (by constructor <;> decide) (by decide) (by decide)).1

/-- Claim C2 (counterexample): in a reachable open-addressing state the key
"e" occupies two slots (created by inserting into a tombstone while an older
"e" entry survived); deleting the present key "e" succeeds, then inserting
"i", whose probe sequence starts at "e"'s old slot 1, gives a state in which
find_element "i" returns its value but find_element "e" is not absent: it
still returns the stale value 2. -/
theorem C2_counterexample :
    ∃ t1 t2 t3 t4 t5 t6 : OpenAddr.OA Int,
      OpenAddr.add_element (OpenAddr.linearProbe compute_polynomial_based_hash) 2
        (OpenAddr.init 4 (3/4)) "a" 1 = some t1 ∧
      OpenAddr.add_element (OpenAddr.linearProbe compute_polynomial_based_hash) 2
        t1 "e" 2 = some t2 ∧
      OpenAddr.remove_element (OpenAddr.linearProbe compute_polynomial_based_hash)
        t2 "a" = (t3, true) ∧
      OpenAddr.add_element (OpenAddr.linearProbe compute_polynomial_based_hash) 2
        t3 "e" 3 = some t4 ∧
      OpenAddr.remove_element (OpenAddr.linearProbe compute_polynomial_based_hash)
        t4 "e" = (t5, true) ∧
      OpenAddr.slotAt t5 1 = OpenAddr.Slot.deleted ∧
      OpenAddr.linearProbe compute_polynomial_based_hash "i" 4 0 = 1 ∧
      OpenAddr.add_element (OpenAddr.linearProbe compute_polynomial_based_hash) 2
        t5 "i" 4 = some t6 ∧
      OpenAddr.find_element (OpenAddr.linearProbe compute_polynomial_based_hash)
        t6 "i" = some 4 ∧
      OpenAddr.find_element (OpenAddr.linearProbe compute_polynomial_based_hash)
        t6 "e" = some 2 := by
  refine ⟨⟨4, 3/4, [.empty, .entry "a" 1, .empty, .empty], 1⟩,
    ⟨4, 3/4, [.empty, .entry "a" 1, .entry "e" 2, .empty], 2⟩,
    ⟨4, 3/4, [.empty, .deleted, .entry "e" 2, .empty], 1⟩,
    ⟨4, 3/4, [.empty, .entry "e" 3, .entry "e" 2, .empty], 2⟩,
    ⟨4, 3/4, [.empty, .deleted, .entry "e" 2, .empty], 1⟩,
    ⟨4, 3/4, [.empty, .entry "i" 4, .entry "e" 2, .empty], 2⟩,
    ?_, ?_, ?_, ?_, ?_, ?_, ?_, ?_, ?_, ?_⟩ <;> with_unfolding_all decide

/-- Claim C2 (amended): in the open-addressing table, for every structurally
well-formed state in which key A occupies at most one slot, after a
successful delete of A followed by any completed insert of a different key B,
find_element A returns absent and find_element B returns B's value. -/
theorem C2_tombstone_amended {V : Type} (probe : String → Nat → Nat → Nat)
    (hp : OpenAddr.GoodProbe probe) (t : OpenAddr.OA V) (A B : String)
    (vB : V) (f : Nat) (t'' : OpenAddr.OA V) (hs : OpenAddr.Struct t)
    (huniq : OpenAddr.keyCount t A ≤ 1)
    (hrm : (OpenAddr.remove_element probe t A).2 = true) (hAB : A ≠ B)
    (hadd : OpenAddr.add_element probe f
      (OpenAddr.remove_element probe t A).1 B vB = some t'') :
    OpenAddr.find_element probe t'' A = none ∧
    OpenAddr.find_element probe t'' B = some vB := by
  rcases OpenAddr.remove_element_spec A hp hs with ⟨hfalse, _⟩ | ⟨_, i, hi, w, hslot, heq⟩
  · rw [hrm] at hfalse
    cases hfalse
  · set t1 := (OpenAddr.remove_element probe t A).1 with ht1
    have hst1 : t1.storage = t.storage.set i .deleted := by rw [heq]
    have hsum := OpenAddr.sumW_set (OpenAddr.keyWeight A) t.storage i .deleted hi .empty
    have hgetD : t.storage.getD i .empty = OpenAddr.Slot.entry A w := hslot
    rw [hgetD] at hsum
    have hw1 : OpenAddr.keyWeight A (OpenAddr.Slot.entry A w) = 1 := by
      rw [OpenAddr.keyWeight, if_pos rfl]
    have hwd : OpenAddr.keyWeight A (OpenAddr.Slot.deleted : OpenAddr.Slot V) = 0 := rfl
    have hkz : OpenAddr.sumW (OpenAddr.keyWeight A) t1.storage = 0 := by
      rw [hst1]
      rw [OpenAddr.keyCount] at huniq
      omega
    have hnk : ∀ s ∈ t1.storage, OpenAddr.isEntryKey A s = false :=
      OpenAddr.noEntry_of_keyCount_zero hkz
    have hs1 : OpenAddr.Struct t1 := by
      constructor
      · rw [hst1, List.length_set]
        have : t1.capacity = t.capacity := by rw [heq]
        rw [this, hs.1]
      · have : t1.capacity = t.capacity := by rw [heq]
        rw [this]
        exact hs.2
    refine ⟨?_, (OpenAddr.add_element_find_self hp hs1 hadd).2⟩
    apply OpenAddr.find_element_none_of_noKey
    exact OpenAddr.add_element_noKey hAB hnk hadd

/-- Claim C2 (amended, witness): concrete instance: "a" occupies slot 1 once,
"e" occupies slot 2; deleting "a" and inserting "i" (whose probe sequence
starts at "a"'s old slot 1) leaves "a" absent and "i" findable. -/
theorem C2_tombstone_amended_witness :
    OpenAddr.find_element (OpenAddr.linearProbe compute_polynomial_based_hash)
      (⟨4, 3/4, [.empty, .entry "i" 7, .entry "e" 2, .empty], 2⟩ : OpenAddr.OA Int)
      "a" = none ∧
    OpenAddr.find_element (OpenAddr.linearProbe compute_polynomial_based_hash)
      (⟨4, 3/4, [.empty, .entry "i" 7, .entry "e" 2, .empty], 2⟩ : OpenAddr.OA Int)
      "i" = some 7 :=
  C2_tombstone_amended (OpenAddr.linearProbe compute_polynomial_based_hash)
    (OpenAddr.goodProbe_linear compute_polynomial_based_hash)
    (⟨4, 3/4, [.empty, .entry "a" 1, .entry "e" 2, .empty], 2⟩ : OpenAddr.OA Int)
    "a" "i" 7 1 _ (by constructor <;> decide) (by decide)
    (by with_unfolding_all decide) (by decide) (by with_unfolding_all decide)

/-- Claim C3: starting from a freshly constructed table of positive capacity,
for every sequence of inserts with pairwise-distinct keys that completes, the
lookup of every inserted key returns the value inserted for it and the element
count equals the number of keys inserted — for the chained table and for the
open-addressing table. -/
theorem C3_round_trip {V : Type} (l : List (String × V))
    (hnd : (l.map Prod.fst).Nodup) :
    (∀ (hf : String → Nat → Nat) (cap : Nat) (mlf : ℚ) (f : Nat)
        (t' : Chaining.Chain V),
      GoodHash hf → 1 ≤ cap →
      l.foldlM (fun acc p => Chaining.add_entry hf f acc p.1 p.2)
          (Chaining.init cap mlf) = some t' →
      (∀ p ∈ l, Chaining.retrieve_value hf t' p.1 = some p.2) ∧
      t'.element_count = l.length) ∧
    (∀ (probe : String → Nat → Nat → Nat) (cap : Nat) (mlf : ℚ) (f : Nat)
        (t' : OpenAddr.OA V),
      OpenAddr.GoodProbe probe → 1 ≤ cap →
      l.foldlM (fun acc p => OpenAddr.add_element probe f acc p.1 p.2)
          (OpenAddr.init cap mlf) = some t' →
      (∀ p ∈ l, OpenAddr.find_element probe t' p.1 = some p.2) ∧
      t'.element_count = l.length) := by
  constructor
  · intro hf cap mlf f t' hh hcap hfold
    have hwf0 : Chaining.WF hf (Chaining.init cap mlf : Chaining.Chain V) :=
      Chaining.WF_init hf cap mlf hcap
    obtain ⟨hwf, hret, hcnt, _⟩ :=
      Chaining.foldlM_add_spec hf (fun t k v => Chaining.add_entry hf f t k v)
        (fun a b c d hw ha => Chaining.add_entry_spec hf hh f a b c d hw ha)
        l (Chaining.init cap mlf) t' hwf0 hnd
        (fun p _ => Chaining.retrieve_init hf cap mlf p.1) hfold
    refine ⟨?_, ?_⟩
    · intro p hp
      have hlk : Chaining.lookupB p.1 l = some p.2 :=
        OpenAddr.lookupB_eq_some_of_mem_uniq (by simpa using hp)
          (OpenAddr.keysUniq_of_nodup hnd)
      rw [hret p.1, hlk]
    · have h0 : (Chaining.init cap mlf : Chaining.Chain V).element_count = 0 := rfl
      rw [hcnt, h0, Nat.zero_add]
  · intro probe cap mlf f t' hp hcap hfold
    have hcl0 : OpenAddr.CleanInv probe (OpenAddr.init cap mlf : OpenAddr.OA V) :=
      OpenAddr.CleanInv_init probe cap mlf hcap
    obtain ⟨hcl, hret, hcnt, _⟩ :=
      OpenAddr.clean_fold hp (fun t k v => OpenAddr.add_element probe f t k v)
        (fun a b c d hc ha => OpenAddr.add_element_cleanSpec hp hc ha)
        l (OpenAddr.init cap mlf) t' hcl0 (OpenAddr.keysUniq_of_nodup hnd)
        (fun p _ => OpenAddr.find_element_init_none probe cap mlf p.1) hfold
    refine ⟨?_, ?_⟩
    · intro p hp'
      have hlk : Chaining.lookupB p.1 l = some p.2 :=
        OpenAddr.lookupB_eq_some_of_mem_uniq (by simpa using hp')
          (OpenAddr.keysUniq_of_nodup hnd)
      rw [hret p.1, hlk]
    · have h0 : (OpenAddr.init cap mlf : OpenAddr.OA V).element_count = 0 := rfl
      rw [hcnt, h0, Nat.zero_add]

/-- Claim C3 (witness): concrete instance: inserting ("a", 1) then ("b", 2)
into fresh tables of capacity 2 leaves both keys findable with their values
and the element count 2 in both tables. -/
theorem C3_round_trip_witness :
    ((∀ p ∈ [("a", (1 : Int)), ("b", 2)],
        Chaining.retrieve_value compute_polynomial_based_hash
          (⟨2, 3/4, [[("b", 2)], [("a", 1)]], 2⟩ : Chaining.Chain Int) p.1
          = some p.2) ∧
      (⟨2, 3/4, [[("b", 2)], [("a", 1)]], 2⟩ : Chaining.Chain Int).element_count
        = [("a", (1 : Int)), ("b", 2)].length) ∧
    ((∀ p ∈ [("a", (1 : Int)), ("b", 2)],
        OpenAddr.find_element (OpenAddr.linearProbe compute_polynomial_based_hash)
          (⟨2, 3/4, [.entry "b" 2, .entry "a" 1], 2⟩ : OpenAddr.OA Int) p.1
          = some p.2) ∧
      (⟨2, 3/4, [.entry "b" 2, .entry "a" 1], 2⟩ : OpenAddr.OA Int).element_count
        = [("a", (1 : Int)), ("b", 2)].length) :=
  ⟨(C3_round_trip [("a", 1), ("b", 2)] (by decide)).1
      compute_polynomial_based_hash 2 (3/4) 0 _ goodHash_poly (by norm_num)
      (by with_unfolding_all decide),
    (C3_round_trip [("a", 1), ("b", 2)] (by decide)).2
      (OpenAddr.linearProbe compute_polynomial_based_hash) 2 (3/4) 0 _
      (OpenAddr.goodProbe_linear compute_polynomial_based_hash) (by norm_num)
      (by with_unfolding_all decide)⟩

/-- Claim C4 (counterexample): a reachable open-addressing state (built with
linear probing and the default polynomial hash from the fresh table of
capacity 4) in which the key "e" occupies two slots; inserting ("h", 5) gives
element count 4, and then inserting the same key "h" with value 6 triggers
the pre-insert expansion, which collapses the duplicate "e" entries, so the
element count drops to 3: the second insert of an existing key does not leave
len() unchanged. -/
theorem C4_counterexample :
    ∃ t1 t2 t3 t4 t5 t6 t7 : OpenAddr.OA Int,
      OpenAddr.add_element (OpenAddr.linearProbe compute_polynomial_based_hash) 0
        (OpenAddr.init 4 (3/4)) "a" 1 = some t1 ∧
      OpenAddr.add_element (OpenAddr.linearProbe compute_polynomial_based_hash) 0
        t1 "e" 2 = some t2 ∧
      OpenAddr.remove_element (OpenAddr.linearProbe compute_polynomial_based_hash)
        t2 "a" = (t3, true) ∧
      OpenAddr.add_element (OpenAddr.linearProbe compute_polynomial_based_hash) 0
        t3 "e" 3 = some t4 ∧
      OpenAddr.add_element (OpenAddr.linearProbe compute_polynomial_based_hash) 0
        t4 "d" 4 = some t5 ∧
      OpenAddr.add_element (OpenAddr.linearProbe compute_polynomial_based_hash) 0
        t5 "h" 5 = some t6 ∧
      t6.element_count = 4 ∧
      OpenAddr.add_element (OpenAddr.linearProbe compute_polynomial_based_hash) 0
        t6 "h" 6 = some t7 ∧
      t7.element_count = 3 ∧
      OpenAddr.find_element (OpenAddr.linearProbe compute_polynomial_based_hash)
        t7 "h" = some 6 := by
  refine ⟨⟨4, 3/4, [.empty, .entry "a" 1, .empty, .empty], 1⟩,
    ⟨4, 3/4, [.empty, .entry "a" 1, .entry "e" 2, .empty], 2⟩,
    ⟨4, 3/4, [.empty, .deleted, .entry "e" 2, .empty], 1⟩,
    ⟨4, 3/4, [.empty, .entry "e" 3, .entry "e" 2, .empty], 2⟩,
    ⟨4, 3/4, [.entry "d" 4, .entry "e" 3, .entry "e" 2, .empty], 3⟩,
    ⟨4, 3/4, [.entry "d" 4, .entry "e" 3, .entry "e" 2, .entry "h" 5], 4⟩,
    ⟨8, 3/4, [.entry "h" 6, .empty, .empty, .empty, .entry "d" 4, .entry "e" 2,
      .empty, .empty], 3⟩,
    ?_, ?_, ?_, ?_, ?_, ?_, ?_, ?_, ?_, ?_⟩ <;> with_unfolding_all decide

/-- Claim C4 (amended): inserting the same key twice leaves the element count
after the second insert equal to the count after the first and the lookup
returns the second value — unconditionally for well-formed chained tables,
and for open-addressing tables in a clean state (no tombstones and no
duplicated key, which the insert-into-tombstone behaviour of _insert_entry
does not guarantee for all reachable states). -/
theorem C4_overwrite_amended {V : Type} :
    (∀ (hf : String → Nat → Nat) (t t1 t2 : Chaining.Chain V) (f1 f2 : Nat)
        (k : String) (v1 v2 : V),
      GoodHash hf → Chaining.WF hf t →
      Chaining.add_entry hf f1 t k v1 = some t1 →
      Chaining.add_entry hf f2 t1 k v2 = some t2 →
      t2.element_count = t1.element_count ∧
      Chaining.retrieve_value hf t2 k = some v2) ∧
    (∀ (probe : String → Nat → Nat → Nat) (t t1 t2 : OpenAddr.OA V)
        (f1 f2 : Nat) (k : String) (v1 v2 : V),
      OpenAddr.GoodProbe probe → OpenAddr.CleanInv probe t →
      OpenAddr.add_element probe f1 t k v1 = some t1 →
      OpenAddr.add_element probe f2 t1 k v2 = some t2 →
      t2.element_count = t1.element_count ∧
      OpenAddr.find_element probe t2 k = some v2) := by
  constructor
  · intro hf t t1 t2 f1 f2 k v1 v2 hh hwf h1 h2
    obtain ⟨hwf1, hret1, _, _⟩ := Chaining.add_entry_spec hf hh f1 t k v1 t1 hwf h1
    obtain ⟨_, hret2, hcnt2, _⟩ := Chaining.add_entry_spec hf hh f2 t1 k v2 t2 hwf1 h2
    have hk1 : Chaining.retrieve_value hf t1 k = some v1 := by
      rw [hret1 k, if_pos rfl]
    refine ⟨?_, ?_⟩
    · rw [hcnt2, hk1]
      rfl
    · rw [hret2 k, if_pos rfl]
  · intro probe t t1 t2 f1 f2 k v1 v2 hp hcl h1 h2
    obtain ⟨hcl1, hf1, _, _, _⟩ := OpenAddr.add_element_cleanSpec hp hcl h1
    obtain ⟨_, hf2, _, hcnt2, _⟩ := OpenAddr.add_element_cleanSpec hp hcl1 h2
    refine ⟨?_, hf2⟩
    rw [hcnt2, hf1]
    rfl

/-- Claim C4 (amended, witness): concrete instance for both tables: inserting
key "a" with value 1 and then with value 2 leaves the count at 1 and the
lookup returns 2. -/
theorem C4_overwrite_amended_witness :
    ((⟨1, 2, [[("a", (2 : Int))]], 1⟩ : Chaining.Chain Int).element_count
        = (⟨1, 2, [[("a", (1 : Int))]], 1⟩ : Chaining.Chain Int).element_count ∧
      Chaining.retrieve_value compute_polynomial_based_hash
        (⟨1, 2, [[("a", (2 : Int))]], 1⟩ : Chaining.Chain Int) "a" = some 2) ∧
    ((⟨4, 3/4, [.empty, .entry "a" 2, .empty, .empty], 1⟩
          : OpenAddr.OA Int).element_count
        = (⟨4, 3/4, [.empty, .entry "a" 1, .empty, .empty], 1⟩
          : OpenAddr.OA Int).element_count ∧
      OpenAddr.find_element (OpenAddr.linearProbe compute_polynomial_based_hash)
        (⟨4, 3/4, [.empty, .entry "a" 2, .empty, .empty], 1⟩ : OpenAddr.OA Int)
        "a" = some 2) :=
  ⟨(@C4_overwrite_amended Int).1 compute_polynomial_based_hash
      (Chaining.init 1 2) _ _ 0 0 "a" 1 2 goodHash_poly
      (Chaining.WF_init compute_polynomial_based_hash 1 2 (by norm_num))
      (by with_unfolding_all decide) (by with_unfolding_all decide),
    (@C4_overwrite_amended Int).2
      (OpenAddr.linearProbe compute_polynomial_based_hash)
      (OpenAddr.init 4 (3/4)) _ _ 0 0 "a" 1 2
      (OpenAddr.goodProbe_linear compute_polynomial_based_hash)
      (OpenAddr.CleanInv_init (OpenAddr.linearProbe compute_polynomial_based_hash)
        4 (3/4) (by norm_num))
      (by with_unfolding_all decide) (by with_unfolding_all decide)⟩

/-- Claim C6: for the open-addressing table with linear probing over any
in-range primary hash, initial capacity 2 and max load factor 3/4: inserting
two distinct keys fills the table (count 2 = capacity 2), inserting a third
distinct key succeeds with the capacity becoming 4, and afterwards all three
keys are found with their inserted values. -/
theorem C6_forced_resize {V : Type} (hf : String → Nat → Nat)
    (k1 k2 k3 : String) (v1 v2 v3 : V)
    (h12 : k1 ≠ k2) (h13 : k1 ≠ k3) (h23 : k2 ≠ k3) (f : Nat) :
    ∃ t1 t2 t3 : OpenAddr.OA V,
      OpenAddr.add_element (OpenAddr.linearProbe hf) f
        (OpenAddr.init 2 (3/4)) k1 v1 = some t1 ∧
      OpenAddr.add_element (OpenAddr.linearProbe hf) f t1 k2 v2 = some t2 ∧
      t2.capacity = 2 ∧ t2.element_count = 2 ∧
      OpenAddr.add_element (OpenAddr.linearProbe hf) f t2 k3 v3 = some t3 ∧
      t3.capacity = 4 ∧
      OpenAddr.find_element (OpenAddr.linearProbe hf) t3 k1 = some v1 ∧
      OpenAddr.find_element (OpenAddr.linearProbe hf) t3 k2 = some v2 ∧
      OpenAddr.find_element (OpenAddr.linearProbe hf) t3 k3 = some v3 := by
  have hp : OpenAddr.GoodProbe (OpenAddr.linearProbe hf) :=
    OpenAddr.goodProbe_linear hf
  have hcl0 : OpenAddr.CleanInv (OpenAddr.linearProbe hf)
      (OpenAddr.init 2 (3/4) : OpenAddr.OA V) :=
    OpenAddr.CleanInv_init _ 2 _ (by norm_num)
  have hlt0 : (OpenAddr.init 2 (3/4) : OpenAddr.OA V).element_count
      < (OpenAddr.init 2 (3/4) : OpenAddr.OA V).capacity := by
    show (0 : Nat) < 2
    norm_num
  obtain ⟨i1, hidx1⟩ :=
    OpenAddr.linear_findInsertIndex_some k1 hcl0.1 hcl0.2.1 hcl0.2.2.1 hlt0
  have hins1 := OpenAddr.insertEntry_of_findInsertIndex_some hidx1 f v1
  obtain ⟨hclA, hfindA, hotherA, hcntA0, hmaxA⟩ :=
    OpenAddr.cleanPlace v1 hp hcl0 hidx1
  set tA := OpenAddr.placeAt (OpenAddr.init 2 (3/4) : OpenAddr.OA V) i1 k1 v1
    with htA
  have hload0 : ¬ OpenAddr.compute_current_load
      (OpenAddr.init 2 (3/4) : OpenAddr.OA V)
      > (OpenAddr.init 2 (3/4) : OpenAddr.OA V).max_load_factor := by
    rw [OpenAddr.compute_current_load]
    show ¬ (((0 : Nat) : ℚ) / ((2 : Nat) : ℚ) > 3/4)
    push_cast
    norm_num
  have haddA : OpenAddr.add_element (OpenAddr.linearProbe hf) f
      (OpenAddr.init 2 (3/4) : OpenAddr.OA V) k1 v1 = some tA := by
    rw [OpenAddr.add_element, if_neg hload0]
    exact hins1
  have hfresh1 : OpenAddr.find_element (OpenAddr.linearProbe hf)
      (OpenAddr.init 2 (3/4) : OpenAddr.OA V) k1 = none :=
    OpenAddr.find_element_init_none _ 2 _ k1
  have hcntA : tA.element_count = 1 := by
    rw [hcntA0, hfresh1]
    rfl
  have hcapA : tA.capacity = 2 := rfl
  have hmlfA : tA.max_load_factor = 3/4 := hmaxA
  have hloadA : ¬ OpenAddr.compute_current_load tA > tA.max_load_factor := by
    rw [OpenAddr.compute_current_load, hcntA, hcapA, hmlfA]
    push_cast
    norm_num
  have hltA : tA.element_count < tA.capacity := by
    rw [hcntA, hcapA]
    norm_num
  obtain ⟨i2, hidx2⟩ :=
    OpenAddr.linear_findInsertIndex_some k2 hclA.1 hclA.2.1 hclA.2.2.1 hltA
  have hins2 := OpenAddr.insertEntry_of_findInsertIndex_some hidx2 f v2
  obtain ⟨hclB, hfindB, hotherB, hcntB0, hmaxB⟩ :=
    OpenAddr.cleanPlace v2 hp hclA hidx2
  set tB := OpenAddr.placeAt tA i2 k2 v2 with htB
  have haddB : OpenAddr.add_element (OpenAddr.linearProbe hf) f tA k2 v2
      = some tB := by
    rw [OpenAddr.add_element, if_neg hloadA]
    exact hins2
  have hfresh2 : OpenAddr.find_element (OpenAddr.linearProbe hf) tA k2 = none := by
    rw [hotherA k2 (Ne.symm h12)]
    exact OpenAddr.find_element_init_none _ 2 _ k2
  have hcntB : tB.element_count = 2 := by
    rw [hcntB0, hfresh2, hcntA]
    rfl
  have hcapB : tB.capacity = 2 := hcapA
  have hmlfB : tB.max_load_factor = 3/4 := hmaxB.trans hmlfA
  have hfindBk1 : OpenAddr.find_element (OpenAddr.linearProbe hf) tB k1
      = some v1 := by
    rw [hotherB k1 h12]
    exact hfindA
  have hloadB : OpenAddr.compute_current_load tB > tB.max_load_factor := by
    rw [OpenAddr.compute_current_load, hcntB, hcapB, hmlfB]
    push_cast
    norm_num
  have hclE0 : OpenAddr.CleanInv (OpenAddr.linearProbe hf)
      (OpenAddr.init (2 * tB.capacity) tB.max_load_factor : OpenAddr.OA V) :=
    OpenAddr.CleanInv_init _ _ _ (by rw [hcapB]; norm_num)
  have hlive : (OpenAddr.liveEntries tB).length = 2 := by
    rw [OpenAddr.length_liveEntries_eq_sumW, ← hclB.2.2.1, hcntB]
  obtain ⟨tE, hfoldE, _, hcapE0, _, _⟩ :=
    OpenAddr.linear_fold_total f (OpenAddr.liveEntries tB)
      (OpenAddr.init (2 * tB.capacity) tB.max_load_factor) hclE0
      (by
        have h1 : (OpenAddr.init (2 * tB.capacity) tB.max_load_factor
            : OpenAddr.OA V).element_count = 0 := rfl
        have h2 : (OpenAddr.init (2 * tB.capacity) tB.max_load_factor
            : OpenAddr.OA V).capacity = 2 * tB.capacity := rfl
        rw [h1, h2, hlive, hcapB]
        norm_num)
  obtain ⟨hclE, hfindE, hcntE0, _⟩ :=
    OpenAddr.expand_clean hp
      (fun u a b u' => OpenAddr.insertEntry_cleanSpec hp f u a b u') hclB hfoldE
  have hcapE : tE.capacity = 4 := by
    rw [hcapE0]
    show 2 * tB.capacity = 4
    rw [hcapB]
  have hcntE : tE.element_count = 2 := by
    rw [hcntE0, hcntB]
  have hltE : tE.element_count < tE.capacity := by
    rw [hcntE, hcapE]
    norm_num
  obtain ⟨i3, hidx3⟩ :=
    OpenAddr.linear_findInsertIndex_some k3 hclE.1 hclE.2.1 hclE.2.2.1 hltE
  have hins3 := OpenAddr.insertEntry_of_findInsertIndex_some hidx3 f v3
  obtain ⟨hclC, hfindC, hotherC, hcntC0, hmaxC⟩ :=
    OpenAddr.cleanPlace v3 hp hclE hidx3
  set tC := OpenAddr.placeAt tE i3 k3 v3 with htC
  have hexpE : OpenAddr.expand (OpenAddr.linearProbe hf) f tB (2 * tB.capacity)
      = some tE := by
    rw [OpenAddr.expand]
    exact hfoldE
  have haddC : OpenAddr.add_element (OpenAddr.linearProbe hf) f tB k3 v3
      = some tC := by
    rw [OpenAddr.add_element, if_pos hloadB, hexpE]
    show OpenAddr.insertEntry (OpenAddr.linearProbe hf) f tE k3 v3 = some tC
    rw [htC]
    exact hins3
  have hcapC : tC.capacity = 4 := by
    rw [htC]
    show tE.capacity = 4
    exact hcapE
  refine ⟨tA, tB, tC, haddA, haddB, hcapB, hcntB, haddC, hcapC, ?_, ?_, hfindC⟩
  · rw [hotherC k1 h13, hfindE k1]
    exact hfindBk1
  · rw [hotherC k2 h23, hfindE k2]
    exact hfindB

/-- Claim C6 (witness): the forced-resize scenario at the concrete keys "a",
"b", "c" with the default polynomial hash and integer values. -/
theorem C6_forced_resize_witness :
    ∃ t1 t2 t3 : OpenAddr.OA Int,
      OpenAddr.add_element (OpenAddr.linearProbe compute_polynomial_based_hash) 0
        (OpenAddr.init 2 (3/4)) "a" 1 = some t1 ∧
      OpenAddr.add_element (OpenAddr.linearProbe compute_polynomial_based_hash) 0
        t1 "b" 2 = some t2 ∧
      t2.capacity = 2 ∧ t2.element_count = 2 ∧
      OpenAddr.add_element (OpenAddr.linearProbe compute_polynomial_based_hash) 0
        t2 "c" 3 = some t3 ∧
      t3.capacity = 4 ∧
      OpenAddr.find_element (OpenAddr.linearProbe compute_polynomial_based_hash)
        t3 "a" = some 1 ∧
      OpenAddr.find_element (OpenAddr.linearProbe compute_polynomial_based_hash)
        t3 "b" = some 2 ∧
      OpenAddr.find_element (OpenAddr.linearProbe compute_polynomial_based_hash)
        t3 "c" = some 3 :=
  C6_forced_resize compute_polynomial_based_hash "a" "b" "c" 1 2 3
    (by decide) (by decide) (by decide) 0

/-- Claim C7 (counterexample): with the default max load factor 3/4, inserting
the three distinct keys "a", "b", "c" into the chained table of capacity 1
does not leave them in bucket 0: the automatic resize fires twice, the final
table has capacity 4 with each key alone in its own bucket, and
analyze_collision_statistics returns (0, 0), not (2, 2). -/
theorem C7_counterexample :
    ∃ t1 t2 t3 : Chaining.Chain Int,
      Chaining.add_entry compute_polynomial_based_hash 2
        (Chaining.init 1 (3/4)) "a" 1 = some t1 ∧
      Chaining.add_entry compute_polynomial_based_hash 2 t1 "b" 2 = some t2 ∧
      Chaining.add_entry compute_polynomial_based_hash 2 t2 "c" 3 = some t3 ∧
      t3.capacity = 4 ∧
      t3.storage = [[], [("a", 1)], [("b", 2)], [("c", 3)]] ∧
      Chaining.analyze_collision_statistics t3 = (0, 0) := by
  refine ⟨⟨1, 3/4, [[("a", 1)]], 1⟩, ⟨2, 3/4, [[("b", 2)], [("a", 1)]], 2⟩,
    ⟨4, 3/4, [[], [("a", 1)], [("b", 2)], [("c", 3)]], 3⟩,
    ?_, ?_, ?_, ?_, ?_, ?_⟩ <;> with_unfolding_all decide

/-- Claim C7 (amended): the degenerate capacity-1 scenario behaves as claimed
when the max load factor is at least 2, so that no resize fires during the
three inserts: for any in-range hash function every key hashes to bucket 0,
the three entries coexist in bucket 0's chain in insertion order, and
analyze_collision_statistics returns (2, 2). -/
theorem C7_degenerate_amended {V : Type} (hf : String → Nat → Nat)
    (hh : GoodHash hf) (k1 k2 k3 : String) (v1 v2 v3 : V)
    (h12 : k1 ≠ k2) (h13 : k1 ≠ k3) (h23 : k2 ≠ k3)
    (mlf : ℚ) (hm : 2 ≤ mlf) (f : Nat) :
    Chaining.add_entry hf f (Chaining.init 1 mlf) k1 v1
        = some ⟨1, mlf, [[(k1, v1)]], 1⟩ ∧
    Chaining.add_entry hf f (⟨1, mlf, [[(k1, v1)]], 1⟩ : Chaining.Chain V) k2 v2
        = some ⟨1, mlf, [[(k1, v1), (k2, v2)]], 2⟩ ∧
    Chaining.add_entry hf f
        (⟨1, mlf, [[(k1, v1), (k2, v2)]], 2⟩ : Chaining.Chain V) k3 v3
        = some ⟨1, mlf, [[(k1, v1), (k2, v2), (k3, v3)]], 3⟩ ∧
    Chaining.analyze_collision_statistics
        (⟨1, mlf, [[(k1, v1), (k2, v2), (k3, v3)]], 3⟩ : Chaining.Chain V)
      = (2, 2) := by
  have hz1 : hf k1 1 = 0 := Nat.lt_one_iff.mp (hh k1 1 le_rfl)
  have hz2 : hf k2 1 = 0 := Nat.lt_one_iff.mp (hh k2 1 le_rfl)
  have hz3 : hf k3 1 = 0 := Nat.lt_one_iff.mp (hh k3 1 le_rfl)
  refine ⟨?_, ?_, ?_, ?_⟩
  · have hload : ¬ Chaining.current_load_factor
        (Chaining.init 1 mlf : Chaining.Chain V)
        > (Chaining.init 1 mlf : Chaining.Chain V).max_load_factor := by
      rw [Chaining.current_load_factor]
      push_neg
      show ((0 : Nat) : ℚ) / ((1 : Nat) : ℚ) ≤ mlf
      push_cast
      rw [zero_div]
      linarith
    rw [Chaining.add_entry_of_low_load hf f _ k1 v1 hload]
    congr 1
    simp [Chaining.insertNoResize, Chaining.init, Chaining.bucket,
      Chaining.replaceOrAppend, Chaining.hasKeyB, hz1]
  · have hload : ¬ Chaining.current_load_factor
        (⟨1, mlf, [[(k1, v1)]], 1⟩ : Chaining.Chain V)
        > (⟨1, mlf, [[(k1, v1)]], 1⟩ : Chaining.Chain V).max_load_factor := by
      rw [Chaining.current_load_factor]
      push_neg
      show ((1 : Nat) : ℚ) / ((1 : Nat) : ℚ) ≤ mlf
      push_cast
      rw [div_one]
      linarith
    rw [Chaining.add_entry_of_low_load hf f _ k2 v2 hload]
    congr 1
    simp [Chaining.insertNoResize, Chaining.bucket, Chaining.replaceOrAppend,
      Chaining.hasKeyB, hz2, h12]
  · have hload : ¬ Chaining.current_load_factor
        (⟨1, mlf, [[(k1, v1), (k2, v2)]], 2⟩ : Chaining.Chain V)
        > (⟨1, mlf, [[(k1, v1), (k2, v2)]], 2⟩
            : Chaining.Chain V).max_load_factor := by
      rw [Chaining.current_load_factor]
      push_neg
      show ((2 : Nat) : ℚ) / ((1 : Nat) : ℚ) ≤ mlf
      push_cast
      rw [div_one]
      linarith
    rw [Chaining.add_entry_of_low_load hf f _ k3 v3 hload]
    congr 1
    simp [Chaining.insertNoResize, Chaining.bucket, Chaining.replaceOrAppend,
      Chaining.hasKeyB, hz3, h13, h23]
  · rw [Chaining.analyze_collision_statistics]
    norm_num

/-- Claim C7 (amended, witness): the degenerate scenario at the concrete keys
"a", "b", "c" and max load factor 2 with the default polynomial hash. -/
theorem C7_degenerate_amended_witness :
    Chaining.add_entry compute_polynomial_based_hash 0 (Chaining.init 1 2)
        "a" (1 : Int) = some ⟨1, 2, [[("a", 1)]], 1⟩ ∧
    Chaining.add_entry compute_polynomial_based_hash 0
        (⟨1, 2, [[("a", 1)]], 1⟩ : Chaining.Chain Int) "b" 2
        = some ⟨1, 2, [[("a", 1), ("b", 2)]], 2⟩ ∧
    Chaining.add_entry compute_polynomial_based_hash 0
        (⟨1, 2, [[("a", 1), ("b", 2)]], 2⟩ : Chaining.Chain Int) "c" 3
        = some ⟨1, 2, [[("a", 1), ("b", 2), ("c", 3)]], 3⟩ ∧
    Chaining.analyze_collision_statistics
        (⟨1, 2, [[("a", 1), ("b", 2), ("c", 3)]], 3⟩ : Chaining.Chain Int)
      = (2, 2) :=
  C7_degenerate_amended compute_polynomial_based_hash goodHash_poly
    "a" "b" "c" 1 2 3 (by decide) (by decide) (by decide) 2 (by norm_num) 0

/-- Claim C10: inserting the value None under a key makes the key
indistinguishable from absent at the membership interface of both tables:
contains_key returns false and __getitem__ raises KeyError, yet the element
count still counts the entry (it grows by one when the key was absent). -/
theorem C10_none_indistinguishable {W : Type} :
    (∀ (hf : String → Nat → Nat) (t t' : Chaining.Chain (Option W)) (f : Nat)
        (k : String),
      GoodHash hf → Chaining.WF hf t →
      Chaining.add_entry hf f t k none = some t' →
      Chaining.contains_key hf t' k = false ∧
      Chaining.getitem hf t' k = Except.error "KeyError" ∧
      t'.element_count = t.element_count
        + (if (Chaining.retrieve_value hf t k).isSome then 0 else 1)) ∧
    (∀ (probe : String → Nat → Nat → Nat) (t t' : OpenAddr.OA (Option W))
        (f : Nat) (k : String),
      OpenAddr.GoodProbe probe → OpenAddr.CleanInv probe t →
      OpenAddr.add_element probe f t k none = some t' →
      OpenAddr.contains_key probe t' k = false ∧
      OpenAddr.getitem probe t' k = Except.error "KeyError" ∧
      t'.element_count = t.element_count
        + (if (OpenAddr.find_element probe t k).isSome then 0 else 1)) := by
  constructor
  · intro hf t t' f k hh hwf hadd
    obtain ⟨_, hret, hcnt, _⟩ := Chaining.add_entry_spec hf hh f t k none t' hwf hadd
    have hretk : Chaining.retrieve_value hf t' k = some none := by
      rw [hret k, if_pos rfl]
    have hpy : Chaining.retrieve_py hf t' k = none := by
      unfold Chaining.retrieve_py
      rw [hretk]
    refine ⟨?_, ?_, hcnt⟩
    · unfold Chaining.contains_key
      rw [hpy]
      rfl
    · unfold Chaining.getitem
      rw [hpy]
  · intro probe t t' f k hp hcl hadd
    obtain ⟨_, hfind, _, hcnt, _⟩ := OpenAddr.add_element_cleanSpec hp hcl hadd
    have hpy : OpenAddr.find_py probe t' k = none := by
      unfold OpenAddr.find_py
      rw [hfind]
    refine ⟨?_, ?_, hcnt⟩
    · unfold OpenAddr.contains_key
      rw [hpy]
      rfl
    · unfold OpenAddr.getitem
      rw [hpy]

/-- Claim C10 (witness): concrete instance: after inserting ("a", None) into
fresh tables, contains_key "a" is false and __getitem__ "a" raises KeyError
in both tables, while the count went from 0 to 1. -/
theorem C10_none_indistinguishable_witness :
    (Chaining.contains_key compute_polynomial_based_hash
        (⟨1, 3/4, [[("a", (none : Option Int))]], 1⟩
          : Chaining.Chain (Option Int)) "a" = false ∧
      Chaining.getitem compute_polynomial_based_hash
        (⟨1, 3/4, [[("a", (none : Option Int))]], 1⟩
          : Chaining.Chain (Option Int)) "a" = Except.error "KeyError" ∧
      (⟨1, 3/4, [[("a", (none : Option Int))]], 1⟩
          : Chaining.Chain (Option Int)).element_count
        = (Chaining.init 1 (3/4) : Chaining.Chain (Option Int)).element_count
          + (if (Chaining.retrieve_value compute_polynomial_based_hash
              (Chaining.init 1 (3/4) : Chaining.Chain (Option Int))
              "a").isSome then 0 else 1)) ∧
    (OpenAddr.contains_key (OpenAddr.linearProbe compute_polynomial_based_hash)
        (⟨4, 3/4, [.empty, .entry "a" (none : Option Int), .empty, .empty], 1⟩
          : OpenAddr.OA (Option Int)) "a" = false ∧
      OpenAddr.getitem (OpenAddr.linearProbe compute_polynomial_based_hash)
        (⟨4, 3/4, [.empty, .entry "a" (none : Option Int), .empty, .empty], 1⟩
          : OpenAddr.OA (Option Int)) "a" = Except.error "KeyError" ∧
      (⟨4, 3/4, [.empty, .entry "a" (none : Option Int), .empty, .empty], 1⟩
          : OpenAddr.OA (Option Int)).element_count
        = (OpenAddr.init 4 (3/4) : OpenAddr.OA (Option Int)).element_count
          + (if (OpenAddr.find_element
              (OpenAddr.linearProbe compute_polynomial_based_hash)
              (OpenAddr.init 4 (3/4) : OpenAddr.OA (Option Int))
              "a").isSome then 0 else 1)) :=
  ⟨(@C10_none_indistinguishable Int).1 compute_polynomial_based_hash
      (Chaining.init 1 (3/4)) _ 0 "a" goodHash_poly
      (Chaining.WF_init compute_polynomial_based_hash 1 (3/4) (by norm_num))
      (by with_unfolding_all decide),
    (@C10_none_indistinguishable Int).2
      (OpenAddr.linearProbe compute_polynomial_based_hash)
      (OpenAddr.init 4 (3/4)) _ 0 "a"
      (OpenAddr.goodProbe_linear compute_polynomial_based_hash)
      (OpenAddr.CleanInv_init (OpenAddr.linearProbe compute_polynomial_based_hash)
        4 (3/4) (by norm_num))
      (by with_unfolding_all decide)⟩

end HashLab
